import Mathlib
/-!
# Transcript segmentation and paragraph assembly: a shallow embedding

Verification of the transcript segmentation / paragraph-assembly engine of
the obsidian-yt-transcript plugin.  Text is modelled as `List Char`
(`Str`); JavaScript numbers holding millisecond offsets and durations are
modelled as `Int` (they may go negative in gap computations) or `Nat`
(timestamps); JavaScript values that may be `undefined` are modelled as
`Option`.  Regular-expression tests from the source are implemented as
character-level functions that follow the regex semantics on the inputs
the program feeds them.
-/

/-- Text is a list of characters.  JS string `.length` counts UTF-16 code
units; every character appearing in this development lies in the Basic
Multilingual Plane, where code-unit count and character count agree. -/
abbrev Str := List Char

/-- Characters matched by the JavaScript regex class `\\s`: ASCII
whitespace, NBSP, Ogham space, the U+2000-U+200A spaces, line/paragraph
separators, narrow/medium/ideographic spaces and the BOM. -/
def isWSJS (c : Char) : Bool :=
  let n := c.toNat
  n == 0x20 || n == 0x09 || n == 0x0a || n == 0x0d || n == 0x0b || n == 0x0c ||
  n == 0xa0 || n == 0x1680 || (decide (0x2000 ≤ n) && decide (n ≤ 0x200a)) ||
  n == 0x2028 || n == 0x2029 || n == 0x202f || n == 0x205f ||
  n == 0x3000 || n == 0xfeff

/-- JS `text.replace(/\s+/g, ' ')`: every maximal whitespace run becomes a
single space.  Within a run all characters but the last are dropped and the
last is replaced by `' '`. -/
def collapseWS : Str → Str
  | [] => []
  | [c] => if isWSJS c then [' '] else [c]
  | c₁ :: c₂ :: rest =>
    if isWSJS c₁ && isWSJS c₂ then collapseWS (c₂ :: rest)
    else (if isWSJS c₁ then ' ' else c₁) :: collapseWS (c₂ :: rest)

/-- Drop trailing JS whitespace (the `trimEnd` half of JS `trim`). -/
def trimRightWS : Str → Str
  | [] => []
  | c :: cs =>
    let r := trimRightWS cs
    if r = [] && isWSJS c then [] else c :: r

/-- JS `String.prototype.trim`. -/
def trimWS (s : Str) : Str := trimRightWS (s.dropWhile isWSJS)

/-- The helper `normalizeSpaces` of transcript-view.ts:
`text.replace(/\s+/g, ' ').trim()`. -/
def normalizeSpaces (s : Str) : Str := trimWS (collapseWS s)

/-- Splitting into whitespace-separated words: `wordsAcc input current`
walks the input keeping the (reversed) current word. -/
def wordsAcc : Str → Str → List Str
  | [], acc => if acc = [] then [] else [acc.reverse]
  | c :: cs, acc =>
    if isWSJS c then
      (if acc = [] then [] else [acc.reverse]) ++ wordsAcc cs []
    else wordsAcc cs (c :: acc)

/-- The whitespace-separated words of a string, in order. -/
def wordsWS (s : Str) : List Str := wordsAcc s []

/-- Join a list of strings with a single space, JS `array.join(' ')`. -/
def joinSp : List Str → Str
  | [] => []
  | [x] => x
  | x :: y :: rest => x ++ ' ' :: joinSp (y :: rest)

/-- Characters of the sentence-terminator class `[.!?。！？]`. -/
def isSentEndChar (c : Char) : Bool :=
  c = '.' || c = '!' || c = '?' || c = '。' || c = '！' || c = '？'

/-- JS regex test `/[.!?。！？]\s*$/.test(s)`: after discarding trailing
whitespace the last character is a sentence terminator. -/
def sentenceEndTest (s : Str) : Bool :=
  match s.reverse.dropWhile isWSJS with
  | [] => false
  | c :: _ => isSentEndChar c

/-- JS regex word characters `\w` = `[A-Za-z0-9_]`. -/
def isWordCharJS (c : Char) : Bool :=
  (decide (97 ≤ c.toNat) && decide (c.toNat ≤ 122)) ||
  (decide (65 ≤ c.toNat) && decide (c.toNat ≤ 90)) ||
  (decide (48 ≤ c.toNat) && decide (c.toNat ≤ 57)) || c.toNat == 95

/-- ASCII lower-casing, the behaviour of JS case-insensitive matching on
the ASCII word lists used by the source. -/
def toLowerAscii (c : Char) : Char :=
  if decide (65 ≤ c.toNat) && decide (c.toNat ≤ 90) then
    Char.ofNat (c.toNat + 32)
  else c

/-- Case-insensitive test for JS `/\b(w₁|w₂|…)\s*$/i.test(s)`: after
dropping trailing whitespace, `s` ends with one of the words, and the
character preceding that occurrence (if any) is not a word character. -/
def endsWithWordCI (wordlist : List Str) (s : Str) : Bool :=
  let t := trimRightWS s
  let lt := t.map toLowerAscii
  wordlist.any fun w =>
    let lw := w.map toLowerAscii
    lw.isSuffixOf lt &&
      (t.length = lw.length ||
        match t.get? (t.length - lw.length - 1) with
        | none => true
        | some c => !isWordCharJS c)

/-- Case-insensitive test for JS `/^(w₁|w₂|…)\b/i.test(s)`: `s` starts
with one of the words and the character following it (if any) is not a
word character. -/
def startsWithWordCI (wordlist : List Str) (s : Str) : Bool :=
  let ls := s.map toLowerAscii
  wordlist.any fun w =>
    let lw := w.map toLowerAscii
    lw.isPrefixOf ls &&
      (s.length = lw.length ||
        match s.get? lw.length with
        | none => true
        | some c => !isWordCharJS c)

/-- JS `/^[a-z]/.test(s)`. -/
def startsLowerTest (s : Str) : Bool :=
  match s with
  | [] => false
  | c :: _ => decide (97 ≤ c.toNat) && decide (c.toNat ≤ 122)

/-- Decimal digits of a positive number, most significant first; `fuel`
bounds the recursion depth so the definition is structural. -/
def natDigitsAux : Nat → Nat → Str
  | 0, _ => []
  | fuel + 1, n =>
    if n < 10 then [Nat.digitChar n]
    else natDigitsAux fuel (n / 10) ++ [Nat.digitChar (n % 10)]

/-- Decimal representation of a natural number, as JS number-to-string
interpolation produces for integers. -/
def natToStr (n : Nat) : Str := natDigitsAux (n + 1) n

/-- Left-pad a number to two decimal digits. -/
def pad2 (n : Nat) : Str := if n < 10 then '0' :: natToStr n else natToStr n

/-- Modelled from the spec: the repository's `formatTimestamp` lives in
`src/timestampt-utils.ts`, which is not among the provided sources.  §6 of
the spec describes it as a pure function producing `mm:ss` or `hh:mm:ss`
from milliseconds. -/
def formatTimestamp (ms : Nat) : Str :=
  let totalSec := ms / 1000
  let h := totalSec / 3600
  let m := totalSec % 3600 / 60
  let s := totalSec % 60
  if 0 < h then pad2 h ++ ':' :: pad2 m ++ ':' :: pad2 s
  else pad2 m ++ ':' :: pad2 s

/-- The template literal
``` `[${formatTimestamp(ts)}](${url}&t=${Math.floor(ts/1000)})` ```
shared by all paragraph-assembly variants of transcript-view.ts. -/
def mkTimeLink (url : Str) (ts : Nat) : Str :=
  '[' :: formatTimestamp ts ++ ']' :: '(' :: url ++ '&' :: 't' :: '=' :: natToStr (ts / 1000) ++ [')']

/-- The interface `TranscriptItem` of transcript-view.ts: `timestamp` is
optional. -/
structure TranscriptItem where
  text : Str
  timestamp : Option Nat
deriving DecidableEq, Repr

/-- The interface `ParagraphItem` of transcript-view.ts: `endTimestamp` is
optional (reading the last element of an empty JS array gives
`undefined`). -/
structure ParagraphItem where
  text : List Str
  timestamp : Nat
  endTimestamp : Option Nat
  timeLinks : List Str
deriving DecidableEq, Repr

/-- JS truthiness of the optional `item.timestamp`: `undefined` and `0`
are falsy. -/
def tsTruthy : Option Nat → Bool
  | some t => t != 0
  | none => false

/-- The timestamp-recording block shared verbatim by all assembler
variants:
`if (item.timestamp) { if (timestamps.length === 0) firstTimestamp = ts;
timestamps.push(ts) }`. -/
def recordTimestamp (timestamps : List Nat) (firstTimestamp : Nat)
    (ts : Option Nat) : List Nat × Nat :=
  if tsTruthy ts then
    let t := ts.getD 0
    (timestamps ++ [t], if timestamps.isEmpty then t else firstTimestamp)
  else (timestamps, firstTimestamp)

/-- Word alternatives of the first variant's `incompleteEndRegex`
(transcript-view.ts line 264). -/
def incompleteWordsV1 : List Str :=
  ["and".toList, "or".toList, "but".toList, "in".toList, "on".toList,
   "at".toList, "the".toList, "a".toList, "an".toList, "to".toList,
   "for".toList, "with".toList, "by".toList, "as".toList, "of".toList]

/-- Word alternatives of `/^(and|or|but|so|because|as|if|unless|while|when)\b/i`
(transcript-view.ts line 280). -/
def conjStartWords : List Str :=
  ["and".toList, "or".toList, "but".toList, "so".toList, "because".toList,
   "as".toList, "if".toList, "unless".toList, "while".toList, "when".toList]

/-- Word alternatives of the second variant's `incompleteEndRegex`
(transcript-view.ts line 1115), including the contracted pronoun-verb
forms. -/
def incompleteWordsV2 : List Str :=
  ["and".toList, "or".toList, "but".toList, "because".toList, "if".toList,
   "for".toList, "to".toList, "the".toList, "a".toList, "an".toList,
   "in".toList, "on".toList, "at".toList, "by".toList, "with".toList,
   ('I' :: '\'' :: 'm' :: []), ("I".toList),
   ("you".toList ++ '\'' :: "re".toList),
   ("he".toList ++ '\'' :: "s".toList),
   ("she".toList ++ '\'' :: "s".toList),
   ("it".toList ++ '\'' :: "s".toList),
   ("we".toList ++ '\'' :: "re".toList),
   ("they".toList ++ '\'' :: "re".toList)]

namespace TranscriptViewV1

/-- The mutable accumulator plus the emitted paragraphs of the first
`combineIntoParagraphs` (transcript-view.ts lines 249-350). -/
structure AsmState where
  paragraphs : List ParagraphItem
  texts : List Str
  timestamps : List Nat
  firstTimestamp : Nat
deriving DecidableEq, Repr

def initState : AsmState := ⟨[], [], [], 0⟩

/-- The paragraph pushed on flush: a single combined text string, first
recorded timestamp as start, last recorded timestamp as end, one time
link per recorded timestamp. -/
def flushParagraph (url : Str) (texts : List Str) (timestamps : List Nat)
    (firstTimestamp : Nat) : ParagraphItem :=
  { text := [normalizeSpaces (joinSp texts)]
    timestamp := firstTimestamp
    endTimestamp := timestamps.getLast?
    timeLinks := timestamps.map (mkTimeLink url) }

/-- Lines 270-292 of the `forEach` body: normalize the item's text and
either merge it into the accumulator's last sentence (when the previous
sentence looks incomplete, or the new one starts lowercase or with a
conjunction) or push it as a new sentence. -/
def updatedTexts (st : AsmState) (item : TranscriptItem) : List Str :=
  let normalizedText := normalizeSpaces item.text
  let shouldCombineWithPrevious :=
    !st.texts.isEmpty &&
      (endsWithWordCI incompleteWordsV1 (st.texts.getLastD []) ||
       startsLowerTest normalizedText ||
       startsWithWordCI conjStartWords normalizedText)
  if shouldCombineWithPrevious then
    st.texts.dropLast ++
      [normalizeSpaces (st.texts.getLastD [] ++ ' ' :: normalizedText)]
  else st.texts ++ [normalizedText]

/-- Lines 302-310: end the paragraph after a complete sentence once it has
two sentences, after six sentences, or on the last item. -/
def shouldEndAfter (texts : List Str) (isLast : Bool) : Bool :=
  (sentenceEndTest (texts.getLastD []) && decide (2 ≤ texts.length)) ||
  decide (6 ≤ texts.length) || isLast

/-- One iteration of the `transcript.forEach` body of the first
`combineIntoParagraphs`; `isLast` models `index === transcript.length - 1`. -/
def step (url : Str) (isLast : Bool) (st : AsmState) (item : TranscriptItem) :
    AsmState :=
  let texts := updatedTexts st item
  let rec' := recordTimestamp st.timestamps st.firstTimestamp item.timestamp
  let isLastSentenceIncomplete :=
    endsWithWordCI incompleteWordsV1 (texts.getLastD [])
  if shouldEndAfter texts isLast && !isLastSentenceIncomplete &&
      !texts.isEmpty then
    { paragraphs :=
        st.paragraphs ++ [flushParagraph url texts rec'.1 rec'.2]
      texts := [], timestamps := [], firstTimestamp := 0 }
  else
    { paragraphs := st.paragraphs, texts := texts, timestamps := rec'.1
      firstTimestamp := rec'.2 }

/-- The `forEach` loop: the flag passed to `step` is true exactly on the
final element. -/
def loop (url : Str) : AsmState → List TranscriptItem → AsmState
  | st, [] => st
  | st, [item] => step url true st item
  | st, item :: next :: rest => loop url (step url false st item) (next :: rest)

/-- The first `combineIntoParagraphs` (transcript-view.ts lines 249-350),
including the trailing leftover-accumulator flush of lines 337-347. -/
def combineIntoParagraphs (transcript : List TranscriptItem) (url : Str) :
    List ParagraphItem :=
  let fin := loop url initState transcript
  if !fin.texts.isEmpty then
    fin.paragraphs ++
      [flushParagraph url fin.texts fin.timestamps fin.firstTimestamp]
  else fin.paragraphs

end TranscriptViewV1

namespace TranscriptViewV2

/-- The accumulator of the second transcript view's assemblers
(transcript-view.ts lines 1039-1161), which also count sentences. -/
structure AsmState where
  paragraphs : List ParagraphItem
  texts : List Str
  timestamps : List Nat
  firstTimestamp : Nat
  sentenceCount : Nat
deriving DecidableEq, Repr

def initState : AsmState := ⟨[], [], [], 0, 0⟩

/-- The paragraph pushed on flush by both second-variant assemblers:
`text: [texts.join(' ')]` without re-normalization. -/
def flushParagraph (url : Str) (texts : List Str) (timestamps : List Nat)
    (firstTimestamp : Nat) : ParagraphItem :=
  { text := [joinSp texts]
    timestamp := firstTimestamp
    endTimestamp := timestamps.getLast?
    timeLinks := timestamps.map (mkTimeLink url) }

/-- One iteration of the `transcript.forEach` body of
`createParagraphsDirectly` (transcript-view.ts lines 1117-1158). -/
def stepDirect (url : Str) (minS maxS : Nat) (isLast : Bool) (st : AsmState)
    (item : TranscriptItem) : AsmState :=
  let text := trimWS item.text
  let isCompleteSentence := sentenceEndTest text
  let isIncomplete := endsWithWordCI incompleteWordsV2 text
  let texts := st.texts ++ [text]
  let rec' := recordTimestamp st.timestamps st.firstTimestamp item.timestamp
  let sentenceCount :=
    if isCompleteSentence && !isIncomplete then st.sentenceCount + 1
    else st.sentenceCount
  let shouldEndParagraph :=
    (decide (minS ≤ sentenceCount) && isCompleteSentence) ||
    decide (maxS ≤ sentenceCount) || isLast
  if shouldEndParagraph && !isIncomplete then
    ⟨st.paragraphs ++ [flushParagraph url texts rec'.1 rec'.2],
      [], [], 0, 0⟩
  else ⟨st.paragraphs, texts, rec'.1, rec'.2, sentenceCount⟩

def loopDirect (url : Str) (minS maxS : Nat) :
    AsmState → List TranscriptItem → AsmState
  | st, [] => st
  | st, [item] => stepDirect url minS maxS true st item
  | st, item :: next :: rest =>
    loopDirect url minS maxS (stepDirect url minS maxS false st item)
      (next :: rest)

/-- `createParagraphsDirectly` (transcript-view.ts lines 1099-1161).  Note
that, unlike the first variant, the loop is NOT followed by a
leftover-accumulator flush. -/
def createParagraphsDirectly (minS maxS : Nat)
    (transcript : List TranscriptItem) (url : Str) : List ParagraphItem :=
  (loopDirect url minS maxS initState transcript).paragraphs

/-- JS `/[.!?。！？]$/` used by `createParagraphsFromSentences`: the last
character (no trailing whitespace allowed) is a sentence terminator. -/
def lastCharSentEnd (s : Str) : Bool :=
  match s.getLast? with
  | some c => isSentEndChar c
  | none => false

/-- `transcript[index]?.timestamp || 0` for the head of the remaining
transcript. -/
def headTs : List TranscriptItem → Nat
  | [] => 0
  | item :: _ => item.timestamp.getD 0

/-- One iteration of the `sentences.forEach` body of
`createParagraphsFromSentences` (transcript-view.ts lines 1059-1094);
`timestamp` is the already-defaulted `transcript[index]?.timestamp || 0`,
whose truthiness test is `timestamp ≠ 0`. -/
def stepSentence (url : Str) (minS maxS : Nat) (isLast : Bool)
    (st : AsmState) (sentence : Str) (timestamp : Nat) : AsmState :=
  let texts := st.texts ++ [sentence]
  let rec' := recordTimestamp st.timestamps st.firstTimestamp (some timestamp)
  let sentenceCount := st.sentenceCount + 1
  let shouldEndParagraph :=
    (decide (minS ≤ sentenceCount) && lastCharSentEnd sentence) ||
    decide (maxS ≤ sentenceCount) || isLast
  if shouldEndParagraph then
    ⟨st.paragraphs ++ [flushParagraph url texts rec'.1 rec'.2],
      [], [], 0, 0⟩
  else ⟨st.paragraphs, texts, rec'.1, rec'.2, sentenceCount⟩

def loopSentences (url : Str) (minS maxS : Nat) :
    AsmState → List Str → List TranscriptItem → AsmState
  | st, [], _ => st
  | st, [s], tr => stepSentence url minS maxS true st s (headTs tr)
  | st, s :: s' :: rest, tr =>
    loopSentences url minS maxS
      (stepSentence url minS maxS false st s (headTs tr)) (s' :: rest)
      (tr.drop 1)

/-- `createParagraphsFromSentences` (transcript-view.ts lines 1039-1097). -/
def createParagraphsFromSentences (minS maxS : Nat) (sentences : List Str)
    (transcript : List TranscriptItem) (url : Str) : List ParagraphItem :=
  (loopSentences url minS maxS initState sentences transcript).paragraphs

/-- Scanner for the split `optimizedText.split(/(?<=[.!?。！？])\s+/)`:
a whitespace run opens a delimiter exactly when the previous character is
a sentence terminator; the greedy `\s+` then swallows the whole run. -/
def splitOptGo : Nat → Str → Bool → Str → List Str
  | _, [], _, acc => [acc.reverse]
  | 0, s, _, acc => [acc.reverse ++ s]
  | fuel + 1, c :: rest, prevPunct, acc =>
    if isWSJS c && prevPunct then
      acc.reverse :: splitOptGo fuel (rest.dropWhile isWSJS) false []
    else splitOptGo fuel rest (isSentEndChar c) (c :: acc)

def splitOptimized (s : Str) : List Str := splitOptGo s.length s false []

/-- The second `combineIntoParagraphs` (transcript-view.ts lines
1001-1037).  The awaited external call
`textOptimizer.optimizeText(fullText)` is modelled as an injected
`Except` value: `.ok t` is a resolved promise with text `t`, `.error e` a
rejection/throw anywhere inside the `try` block.  The source catches the
error and falls back to `createParagraphsDirectly`; nothing escapes to the
caller, which this total function mirrors. -/
def combineIntoParagraphs (useAITranslation : Bool) (kimiApiKey : Str)
    (minS maxS : Nat) (optimizeResult : Except Str Str)
    (transcript : List TranscriptItem) (url : Str) : List ParagraphItem :=
  if useAITranslation && !kimiApiKey.isEmpty then
    match optimizeResult with
    | .ok optimizedText =>
      createParagraphsFromSentences minS maxS (splitOptimized optimizedText)
        transcript url
    | .error _ => createParagraphsDirectly minS maxS transcript url
  else createParagraphsDirectly minS maxS transcript url

end TranscriptViewV2

/-- The interface `TranscriptLine` of fetch-transcript.ts
(text/duration/offset in milliseconds).  Offsets and durations are JS
numbers that take part in subtractions, so they are modelled as `Int`. -/
structure TranscriptLine where
  text : Str
  duration : Int
  offset : Int
deriving DecidableEq, Repr

/-- End time of a line, `offset + duration`. -/
def lineEnd (l : TranscriptLine) : Int := l.offset + l.duration

namespace TranscriptFetcher

/-- One `reduce` callback application of
`TranscriptFetcher.mergeShortSubtitles` (fetch-transcript variant, lines
327-345): MIN_DURATION 1000, MAX_GAP 500, MAX_MERGE_LENGTH 100; no
complete-sentence check. -/
def mergeStep (acc : List TranscriptLine) (current : TranscriptLine) :
    List TranscriptLine :=
  match acc.getLast? with
  | none => [current]
  | some last =>
    let gap := current.offset - (last.offset + last.duration)
    let mergedTextLength := (last.text ++ current.text).length
    if (decide (current.duration < 1000) || decide (gap < 500)) &&
        decide (mergedTextLength ≤ 100) then
      acc.dropLast ++
        [{ last with
            text := last.text ++ ' ' :: current.text
            duration := current.offset + current.duration - last.offset }]
    else acc ++ [current]

/-- `mergeShortSubtitles` of the YouTube fetcher: a left fold of the
reduce callback over the lines, starting from `[]`. -/
def mergeShortSubtitles (lines : List TranscriptLine) : List TranscriptLine :=
  lines.foldl mergeStep []

end TranscriptFetcher

namespace BilibiliTranscript

/-- Topic-starter words of `BilibiliTranscript.isCompleteSentence`
(bilibili-transcript.ts line 229). -/
def newTopicStarters : List Str :=
  ["但是".toList, "然后".toList, "接着".toList, "所以".toList, "因此".toList,
   "不过".toList, "而且".toList, "并且".toList, "另外".toList, "总之".toList]

/-- Characters of the class `[.!?。！？…]` (note the ellipsis). -/
def isEndPunctB (c : Char) : Bool :=
  c = '.' || c = '!' || c = '?' || c = '。' || c = '！' || c = '？' || c = '…'

/-- `BilibiliTranscript.isCompleteSentence` (lines 227-233): the regex
`/[.!?。！？…]/` is UNanchored, so it tests for a terminator anywhere in
the trimmed text; the topic-starter regex is anchored at the start. -/
def isCompleteSentence (text : Str) : Bool :=
  let t := trimWS text
  t.any isEndPunctB || newTopicStarters.any (fun w => w.isPrefixOf t)

/-- One `reduce` callback application of
`BilibiliTranscript.mergeShortSubtitles` (lines 201-223): MIN_DURATION
1000, MAX_GAP 300, MAX_MERGE_LENGTH 100, plus the complete-sentence
check; the merged text is `` `${last.text} ${current.text}`.trim() ``. -/
def mergeStep (acc : List TranscriptLine) (current : TranscriptLine) :
    List TranscriptLine :=
  match acc.getLast? with
  | none => [current]
  | some last =>
    let gap := current.offset - (last.offset + last.duration)
    let mergedTextLength := (last.text ++ current.text).length
    let shouldMerge :=
      (decide (current.duration < 1000) || decide (gap < 300)) &&
      decide (mergedTextLength ≤ 100) && !isCompleteSentence last.text
    if shouldMerge then
      acc.dropLast ++
        [{ last with
            text := trimWS (last.text ++ ' ' :: current.text)
            duration := current.offset + current.duration - last.offset }]
    else acc ++ [current]

/-- `mergeShortSubtitles` of the Bilibili fetcher. -/
def mergeShortSubtitles (lines : List TranscriptLine) : List TranscriptLine :=
  lines.foldl mergeStep []

end BilibiliTranscript

/-- Characters of the CJK unified range `[一-龥]` used by the
language tests. -/
def isCJKCharJS (c : Char) : Bool :=
  decide (0x4e00 ≤ c.toNat) && decide (c.toNat ≤ 0x9fa5)

/-- ASCII letters `[a-zA-Z]`. -/
def isAsciiLetter (c : Char) : Bool :=
  (decide (97 ≤ c.toNat) && decide (c.toNat ≤ 122)) ||
  (decide (65 ≤ c.toNat) && decide (c.toNat ≤ 90))

namespace TextOptimizer

/-- `TextOptimizer.isChineseText` (text-optimizer variant, part_000 lines
104-112): the proportion of CJK characters must exceed 0.1.  JS computes
`count / length` as a double; for the empty string this is `0/0 = NaN`,
and `NaN > 0.1` is false.  The embedding uses exact rationals, where
division by zero yields `0` and the comparison is likewise false, so the
two agree on the empty string; on the word lists and thresholds in play
no double-rounding flips the strict comparison. -/
def isChineseText (text : Str) : Bool :=
  let chineseChars := text.filter isCJKCharJS
  decide ((chineseChars.length : ℚ) / (text.length : ℚ) > 1 / 10)

end TextOptimizer

/-- Characters removed by the class `[【】\[\]]`. -/
def isSquareBracketChar (c : Char) : Bool :=
  c = '【' || c = '】' || c = '[' || c = ']'

/-- JS `text.replace(/[【】\[\]]/g, '')`. -/
def removeSquareBrackets (s : Str) : Str :=
  s.filter (fun c => !isSquareBracketChar c)

/-- Characters the JS regex `.` (without the `s` flag) does NOT match. -/
def isLineTerminatorJS (c : Char) : Bool :=
  c = '\n' || c = '\r' || c.toNat == 0x2028 || c.toNat == 0x2029

/-- Scan for the closing delimiter of a lazy `\(.*?\)`-style match:
returns the suffix after the first `close`, failing if a character that
`.` cannot match comes first. -/
def findCloseDelim (close : Char) : Str → Option Str
  | [] => none
  | c :: rest =>
    if c = close then some rest
    else if isLineTerminatorJS c then none
    else findCloseDelim close rest

/-- Global lazy removal `s.replace(/\x28.*?\x29/g, '')` for a generic
delimiter pair: at an opening delimiter the shortest match up to the next
closing delimiter is dropped and scanning resumes after it; if no close
follows, the opener is kept and scanning continues.  `fuel` (the input
length) makes the recursion structural. -/
def removeLazyGo (opn close : Char) : Nat → Str → Str
  | _, [] => []
  | 0, s => s
  | fuel + 1, c :: rest =>
    if c = opn then
      match findCloseDelim close rest with
      | some after => removeLazyGo opn close fuel after
      | none => c :: removeLazyGo opn close fuel rest
    else c :: removeLazyGo opn close fuel rest

/-- JS `text.replace(/\(.*?\)/g, '')`. -/
def removeParens (s : Str) : Str := removeLazyGo '(' ')' s.length s

/-- JS `text.replace(/\{.*?\}/g, '')` (braces written escaped). -/
def removeBraces (s : Str) : Str := removeLazyGo '\x7b' '\x7d' s.length s

/-- Characters of the class `[.!?]` of the English sentence split. -/
def isPunctE (c : Char) : Bool := c = '.' || c = '!' || c = '?'

/-- JS `result.split(/([.!?]+)/)`: alternating text segments and captured
punctuation runs, text segments possibly empty, starting and ending with
a text segment. -/
def splitPunctKeep : Str → List Str
  | [] => [[]]
  | c :: rest =>
    let r := splitPunctKeep rest
    if isPunctE c then
      match r with
      | t :: p :: r' => if t = [] then [] :: (c :: p) :: r' else [] :: [c] :: r
      | _ => [] :: [c] :: r
    else
      match r with
      | t :: r' => (c :: t) :: r'
      | [] => [[c]]

/-- JS `sentence.replace(/^[a-z]/, c => c.toUpperCase())`. -/
def capFirst : Str → Str
  | [] => []
  | c :: cs =>
    if decide (97 ≤ c.toNat) && decide (c.toNat ≤ 122) then
      Char.ofNat (c.toNat - 32) :: cs
    else c :: cs

/-- JS `sentence.replace(/([a-zA-Z])'([a-zA-Z])/g, "$1'$2")`: the
replacement reproduces the match, so the transformation is the
identity. -/
def replaceApos (s : Str) : Str := s

/-- Conjunction alternatives of `/\b(and|but|or|because|so|then)\b/i`. -/
def conjWordsE : List Str :=
  ["and".toList, "but".toList, "or".toList, "because".toList, "so".toList,
   "then".toList]

/-- Try to match one of the conjunction alternatives (in regex order,
case-insensitively) at the head of `s`, requiring a word boundary after
the match; the boundary before the match is the caller's duty.  Returns
the matched slice (original casing) and the remaining suffix. -/
def tryConjAt (s : Str) : Option (Str × Str) :=
  conjWordsE.findSome? fun w =>
    let lw := w.map toLowerAscii
    if lw.isPrefixOf (s.map toLowerAscii) &&
        (s.length = lw.length ||
          match s.get? lw.length with
          | none => true
          | some c => !isWordCharJS c) then
      some (s.take lw.length, s.drop lw.length)
    else none

/-- Scanner realizing `sentence.split(/\b(and|but|or|because|so|then)\b/i)`
with capture: `prevW` tracks whether the previous character is a word
character (so that `\b` holds exactly when it differs from the next
character's class); `acc` is the reversed current text segment. -/
def splitConjGo : Nat → Str → Bool → Str → List Str
  | _, [], _, acc => [acc.reverse]
  | 0, s, _, acc => [acc.reverse ++ s]
  | fuel + 1, c :: rest, prevW, acc =>
    if !prevW then
      match tryConjAt (c :: rest) with
      | some (m, after) => acc.reverse :: m :: splitConjGo fuel after true []
      | none => splitConjGo fuel rest (isWordCharJS c) (c :: acc)
    else splitConjGo fuel rest (isWordCharJS c) (c :: acc)

/-- JS split-with-capture on the conjunction alternation. -/
def splitConj (s : Str) : List Str := splitConjGo s.length s false []

/-- Body of the inner `for (let j = 0; j < parts.length; j += 2)` loop of
`cleanEnglishText`: trim the part, skip it when falsy (empty), otherwise
capitalize and append `", conjunction"` when one follows. -/
def partPush (t conj : Str) : List Str :=
  let part := trimWS t
  if part.isEmpty then []
  else [capFirst part ++ (if conj.isEmpty then [] else ',' :: ' ' :: conj)]

/-- The `j += 2` walk over the conjunction-split parts. -/
def processPartsGo : List Str → List Str
  | [] => []
  | [t] => partPush t []
  | t :: conj :: rest => partPush t conj ++ processPartsGo rest

/-- Body of the `for (let i = 0; i < sentences.length; i += 2)` loop of
`cleanEnglishText` for one sentence/punctuation pair: trim, repair
apostrophes, capitalize; sentences longer than 50 characters whose
conjunction split yields several parts are re-emitted clause by clause
(dropping the terminal punctuation), otherwise the sentence is pushed
with its punctuation and a trailing space. -/
def processOneSentence (s punct : Str) : List Str :=
  let sentence := capFirst (replaceApos (trimWS s))
  if 50 < sentence.length then
    let parts := splitConj sentence
    if 1 < parts.length then processPartsGo parts
    else [sentence ++ punct ++ [' ']]
  else [sentence ++ punct ++ [' ']]

/-- The `i += 2` walk over the filtered split result: `sentences[i+1] || '.'`
supplies `'.'` when no punctuation segment follows. -/
def processSentencesGo : List Str → List Str
  | [] => []
  | [s] => processOneSentence s ['.']
  | s :: p :: rest => processOneSentence s p ++ processSentencesGo rest

namespace TranscriptFetcher

/-- `TranscriptFetcher.cleanEnglishText` (part_001 lines 216-263). -/
def cleanEnglishText (text : Str) : Str :=
  let result :=
    trimWS (removeBraces (removeParens (removeSquareBrackets
      (collapseWS text))))
  let sentences := (splitPunctKeep result).filter (· ≠ [])
  trimWS (List.flatten (processSentencesGo sentences))

/-- Transition words of the Chinese segmentation
(`/^(但是|所以|因此|然后|接着|不过|而且|并且)/`). -/
def transitionWordsCJK : List Str :=
  ["但是".toList, "所以".toList, "因此".toList, "然后".toList, "接着".toList,
   "不过".toList, "而且".toList, "并且".toList]

/-- Characters of `[。！？]`. -/
def isCJKSentEnd (c : Char) : Bool := c = '。' || c = '！' || c = '？'

/-- Sentence-final particles `(吗|呢|啊|哦|呀|哈|吧)$` — all single
characters, so the regex reduces to a last-character test. -/
def isParticleCJK (c : Char) : Bool :=
  c = '吗' || c = '呢' || c = '啊' || c = '哦' || c = '呀' || c = '哈' || c = '吧'

/-- JS `/[。！？，]$/` test. -/
def endsPunctCJK (s : Str) : Bool :=
  match s.getLast? with
  | some c => c = '。' || c = '！' || c = '？' || c = '，'
  | none => false

/-- Append `。` when the segment lacks final punctuation. -/
def appendPunctCJK (s : Str) : Str := if endsPunctCJK s then s else s ++ ['。']

/-- The character walk of `cleanChineseText` (part_001 lines 279-309):
`seg`/`len` mirror `currentSegment`/`currentLength`; the transition-word
test looks at the text remaining AFTER the current character. -/
def cjkSegLoop : Str → Str → Nat → List Str
  | [], seg, _ => if seg.isEmpty then [] else [appendPunctCJK seg]
  | ch :: rest, seg, len =>
    let seg' := seg ++ [ch]
    let len' := len + 1
    if isCJKSentEnd ch || decide (30 ≤ len') ||
        transitionWordsCJK.any (fun w => w.isPrefixOf rest) ||
        (match seg'.getLast? with
         | some c => isParticleCJK c
         | none => false) then
      appendPunctCJK seg' :: cjkSegLoop rest [] 0
    else if ch = '，' && decide (15 < len') then
      seg' :: cjkSegLoop rest [] 0
    else cjkSegLoop rest seg' len'

/-- `TranscriptFetcher.cleanChineseText` (part_001 lines 265-320): remove
all whitespace and bracketed content, then segment, then join with line
breaks. -/
def cleanChineseText (text : Str) : Str :=
  let cleaned :=
    trimWS (removeBraces (removeParens (removeSquareBrackets
      (text.filter (fun c => !isWSJS c)))))
  List.intercalate ['\n'] (cjkSegLoop cleaned [] 0)

/-- `TranscriptFetcher.cleanText` (part_001 lines 202-214): dispatch on
whether Latin letters outnumber CJK characters. -/
def cleanText (text : Str) : Str :=
  let englishMatches := (text.filter isAsciiLetter).length
  let chineseMatches := (text.filter isCJKCharJS).length
  if chineseMatches < englishMatches then cleanEnglishText text
  else cleanChineseText text

end TranscriptFetcher

/-! ## Auxiliary notions used by the verification -/

/-- Words contributed by a transcript item. -/
def itemWords (i : TranscriptItem) : List Str := wordsWS i.text

/-- Words contained in an emitted paragraph, in order. -/
def paraWords (p : ParagraphItem) : List Str := (p.text.map wordsWS).flatten

/-- Words of a paragraph list, in order. -/
def parasWords (ps : List ParagraphItem) : List Str :=
  (ps.map paraWords).flatten

/-- The timestamps the assemblers record: those that are present and
non-zero (JS truthiness), in input order. -/
def recordedTs (items : List TranscriptItem) : List Nat :=
  items.filterMap fun i =>
    if tsTruthy i.timestamp then some (i.timestamp.getD 0) else none

/-- Structural description of an emitted paragraph: its `text` is one
joined string, and there is a single list `tss` of recorded timestamps —
a subsequence of `U` — from which start timestamp, end timestamp and time
links are all derived. -/
def GoodPara (url : Str) (U : List Nat) (p : ParagraphItem) : Prop :=
  ∃ (ts : List Str) (tss : List Nat), p.text = [joinSp ts] ∧ tss.Sublist U ∧
    p.timestamp = tss.headD 0 ∧ p.endTimestamp = tss.getLast? ∧
    p.timeLinks = tss.map (mkTimeLink url)

namespace TranscriptViewV1

/-- Invariant carried through the first assembler's loop. -/
def StInv (url : Str) (U : List Nat) (st : AsmState) : Prop :=
  st.timestamps.Sublist U ∧ st.firstTimestamp = st.timestamps.headD 0 ∧
    ∀ p ∈ st.paragraphs, GoodPara url U p

/-- All words held by the state: those already emitted in paragraphs
followed by those still in the accumulator. -/
def stateWords (st : AsmState) : List Str :=
  parasWords st.paragraphs ++ (st.texts.map wordsWS).flatten

end TranscriptViewV1

namespace TranscriptViewV2

/-- Invariant carried through the second assembler's loops. -/
def StInv (url : Str) (U : List Nat) (st : AsmState) : Prop :=
  st.timestamps.Sublist U ∧ st.firstTimestamp = st.timestamps.headD 0 ∧
    ∀ p ∈ st.paragraphs, GoodPara url U p

/-- All words held by the state. -/
def stateWords (st : AsmState) : List Str :=
  parasWords st.paragraphs ++ (st.texts.map wordsWS).flatten

end TranscriptViewV2

/-- Common shape of one step of both `mergeShortSubtitles` reducers: an
empty accumulator is replaced by `[current]`; otherwise either the last
accumulated line is replaced in place — keeping its offset and moving its
end time to `current`'s end — or `current` is appended. -/
def MergeStepShape
    (step : List TranscriptLine → TranscriptLine → List TranscriptLine) :
    Prop :=
  (∀ cur, step [] cur = [cur]) ∧
  ∀ acc last cur, acc.getLast? = some last →
    (∃ txt, step acc cur =
      acc.dropLast ++
        [{ text := txt, duration := cur.offset + cur.duration - last.offset
           offset := last.offset }]) ∨
    step acc cur = acc ++ [cur]

/-- No two adjacent whitespace characters. -/
def NoDoubleWS (s : Str) : Prop :=
  List.Chain' (fun a b => isWSJS a = false ∨ isWSJS b = false) s

/-- Every whitespace character is a plain space. -/
def wsOnlySpace (s : Str) : Prop := ∀ c ∈ s, isWSJS c = true → c = ' '

/-- ASCII letter or plain space — the character class of the inputs on
which the amended idempotence statement is proved. -/
def isLetterOrSpace (c : Char) : Bool := isAsciiLetter c || c = ' '

/-! ## Word decomposition lemmas -/

theorem wordsAcc_nil (acc : Str) :
    wordsAcc [] acc = if acc = [] then [] else [acc.reverse] := rfl

theorem wordsAcc_cons (c : Char) (cs acc : Str) :
    wordsAcc (c :: cs) acc =
      if isWSJS c then
        (if acc = [] then [] else [acc.reverse]) ++ wordsAcc cs []
      else wordsAcc cs (c :: acc) := rfl

/-- Splitting at any whitespace character splits the word list. -/
theorem wordsAcc_append_ws {c : Char} (h : isWSJS c = true) (b : Str) :
    ∀ (a acc : Str),
      wordsAcc (a ++ c :: b) acc = wordsAcc a acc ++ wordsAcc b [] := by
  intro a
  induction a with
  | nil =>
    intro acc
    rw [List.nil_append, wordsAcc_cons, if_pos h, wordsAcc_nil]
  | cons d a' ih =>
    intro acc
    rw [List.cons_append, wordsAcc_cons, wordsAcc_cons d a' acc]
    by_cases hd : isWSJS d
    · rw [if_pos hd, if_pos hd, ih, List.append_assoc]
    · rw [if_neg hd, if_neg hd, ih]

theorem wordsWS_append_ws {c : Char} (h : isWSJS c = true) (a b : Str) :
    wordsWS (a ++ c :: b) = wordsWS a ++ wordsWS b :=
  wordsAcc_append_ws h b a []

theorem wordsWS_joinSp (l : List Str) :
    wordsWS (joinSp l) = (l.map wordsWS).flatten := by
  induction l with
  | nil => rfl
  | cons x l ih =>
    cases l with
    | nil => simp [joinSp, wordsWS]
    | cons y rest =>
      show wordsWS (x ++ ' ' :: joinSp (y :: rest)) = _
      rw [wordsWS_append_ws (by decide), ih]
      simp

theorem wordsAcc_collapse (s : Str) :
    ∀ acc, wordsAcc (collapseWS s) acc = wordsAcc s acc := by
  induction s with
  | nil => intro acc; rfl
  | cons c₁ cs ih =>
    intro acc
    cases cs with
    | nil =>
      by_cases h : isWSJS c₁ <;>
        simp [collapseWS, h, wordsAcc_cons, wordsAcc_nil,
          (by decide : isWSJS ' ' = true)]
    | cons c₂ rest =>
      show wordsAcc (collapseWS (c₁ :: c₂ :: rest)) acc = _
      by_cases h1 : isWSJS c₁ <;> by_cases h2 : isWSJS c₂
      · rw [collapseWS, if_pos (by simp [h1, h2]), ih,
          wordsAcc_cons c₁, if_pos h1, wordsAcc_cons c₂, if_pos h2,
          wordsAcc_cons c₂, if_pos h2]
        simp
      · rw [collapseWS, if_neg (by simp [h2]), if_pos h1,
          wordsAcc_cons, if_pos (by decide), ih,
          wordsAcc_cons c₁, if_pos h1]
      · rw [collapseWS, if_neg (by simp [h1]), if_neg h1,
          wordsAcc_cons, if_neg h1, ih,
          wordsAcc_cons c₁, if_neg h1]
      · rw [collapseWS, if_neg (by simp [h1]), if_neg h1,
          wordsAcc_cons, if_neg h1, ih,
          wordsAcc_cons c₁, if_neg h1]

theorem wordsWS_collapse (s : Str) : wordsWS (collapseWS s) = wordsWS s := by
  show wordsAcc (collapseWS s) [] = wordsAcc s []
  exact wordsAcc_collapse s []

theorem wordsAcc_dropWhile (s : Str) :
    wordsAcc (s.dropWhile isWSJS) [] = wordsAcc s [] := by
  induction s with
  | nil => rfl
  | cons c cs ih =>
    by_cases h : isWSJS c
    · rw [List.dropWhile_cons_of_pos (by simpa using h), ih,
        wordsAcc_cons, if_pos h]
      simp
    · rw [List.dropWhile_cons_of_neg (by simpa using h)]

theorem trimRightWS_eq_nil_iff (s : Str) :
    trimRightWS s = [] ↔ ∀ c ∈ s, isWSJS c = true := by
  induction s with
  | nil => simp [trimRightWS]
  | cons c cs ih =>
    show (if trimRightWS cs = [] && isWSJS c then [] else c :: trimRightWS cs) = [] ↔ _
    by_cases hr : trimRightWS cs = []
    · by_cases hc : isWSJS c
      · rw [if_pos (by simp [hr, hc])]
        constructor
        · intro _ a ha
          rcases List.mem_cons.mp ha with h | h
          · exact h ▸ hc
          · exact ih.mp hr a h
        · intro _; rfl
      · simp [hr, hc]
    · simp only [hr, Bool.false_and, if_neg]
      constructor
      · intro h; exact absurd h (by simp)
      · intro h
        exact absurd (ih.mpr fun c hc => h c (List.mem_cons_of_mem _ hc)) hr

theorem wordsAcc_all_ws (s : Str) (h : ∀ c ∈ s, isWSJS c = true) :
    wordsAcc s [] = [] := by
  induction s with
  | nil => rfl
  | cons c cs ih =>
    rw [wordsAcc_cons, if_pos (h c (by simp))]
    simp [ih fun c hc => h c (List.mem_cons_of_mem _ hc)]

theorem wordsAcc_trimRight (s : Str) :
    ∀ acc, wordsAcc (trimRightWS s) acc = wordsAcc s acc := by
  induction s with
  | nil => intro acc; rfl
  | cons c cs ih =>
    intro acc
    show wordsAcc (if trimRightWS cs = [] && isWSJS c then []
      else c :: trimRightWS cs) acc = _
    by_cases hr : trimRightWS cs = [] <;> by_cases hc : isWSJS c
    · rw [if_pos (by simp [hr, hc]), wordsAcc_nil, wordsAcc_cons, if_pos hc,
        wordsAcc_all_ws cs ((trimRightWS_eq_nil_iff cs).mp hr)]
      simp
    · rw [if_neg (by simp [hc]), wordsAcc_cons, if_neg hc, ih,
        wordsAcc_cons, if_neg hc]
    · rw [if_neg (by simp [hr]), wordsAcc_cons, if_pos hc, ih,
        wordsAcc_cons, if_pos hc]
    · rw [if_neg (by simp [hr]), wordsAcc_cons, if_neg hc, ih,
        wordsAcc_cons, if_neg hc]

theorem wordsWS_trim (s : Str) : wordsWS (trimWS s) = wordsWS s := by
  show wordsAcc (trimRightWS (s.dropWhile isWSJS)) [] = wordsAcc s []
  rw [wordsAcc_trimRight, wordsAcc_dropWhile]

theorem wordsWS_normalize (s : Str) :
    wordsWS (normalizeSpaces s) = wordsWS s := by
  show wordsAcc (trimRightWS ((collapseWS s).dropWhile isWSJS)) [] = wordsAcc s []
  rw [wordsAcc_trimRight, wordsAcc_dropWhile, wordsAcc_collapse]

theorem wordsWS_append_sp (a b : Str) :
    wordsWS (a ++ ' ' :: b) = wordsWS a ++ wordsWS b :=
  wordsWS_append_ws (by decide) a b

/-! ## Coverage of the assemblers: no word is lost or duplicated -/

theorem parasWords_append (ps qs : List ParagraphItem) :
    parasWords (ps ++ qs) = parasWords ps ++ parasWords qs := by
  simp [parasWords]

theorem flatten_map_dropLast {α : Type} (f : Str → List α) {l : List Str}
    (h : l ≠ []) :
    ((l.dropLast.map f).flatten) ++ f (l.getLastD []) = (l.map f).flatten := by
  conv_rhs => rw [← List.dropLast_append_getLast h]
  rw [List.map_append, List.flatten_append]
  rw [List.getLastD_eq_getLast?, List.getLast?_eq_getLast _ h]
  simp

namespace TranscriptViewV1

theorem paraWords_flush_v1 (url : Str) (texts : List Str) (tss : List Nat)
    (ft : Nat) :
    paraWords (flushParagraph url texts tss ft) = (texts.map wordsWS).flatten := by
  show ([normalizeSpaces (joinSp texts)].map wordsWS).flatten = _
  simp [wordsWS_normalize, wordsWS_joinSp]

theorem updatedTexts_words (st : AsmState) (item : TranscriptItem) :
    ((updatedTexts st item).map wordsWS).flatten =
      (st.texts.map wordsWS).flatten ++ wordsWS item.text := by
  simp only [updatedTexts]
  split
  next h =>
    have hne : st.texts ≠ [] := by
      intro he
      rw [he] at h
      simp at h
    rw [List.map_append, List.flatten_append, ← flatten_map_dropLast wordsWS hne]
    simp [wordsWS_normalize, wordsWS_append_sp, List.append_assoc]
  next =>
    simp [wordsWS_normalize]

theorem step_stateWords (url : Str) (b : Bool) (st : AsmState)
    (item : TranscriptItem) :
    stateWords (step url b st item) = stateWords st ++ wordsWS item.text := by
  simp only [step]
  split
  · show parasWords (st.paragraphs ++ [flushParagraph url _ _ _]) ++
      (([] : List Str).map wordsWS).flatten = _
    rw [parasWords_append]
    have h1 : parasWords [flushParagraph url (updatedTexts st item)
        (recordTimestamp st.timestamps st.firstTimestamp item.timestamp).1
        (recordTimestamp st.timestamps st.firstTimestamp item.timestamp).2] =
        ((updatedTexts st item).map wordsWS).flatten := by
      simp [parasWords, paraWords_flush_v1]
    rw [h1, updatedTexts_words]
    simp [stateWords, List.append_assoc]
  · show parasWords st.paragraphs ++
      ((updatedTexts st item).map wordsWS).flatten = _
    rw [updatedTexts_words]
    simp [stateWords, List.append_assoc]

theorem loop_stateWords (url : Str) :
    ∀ (items : List TranscriptItem) (st : AsmState),
      stateWords (loop url st items) =
        stateWords st ++ (items.map itemWords).flatten
  | [], st => by simp [loop]
  | [item], st => by
    show stateWords (step url true st item) = _
    rw [step_stateWords]
    simp [itemWords]
  | item :: next :: rest, st => by
    show stateWords (loop url (step url false st item) (next :: rest)) = _
    rw [loop_stateWords url (next :: rest), step_stateWords]
    simp [itemWords, List.append_assoc]

/-- Full coverage for the first assembler: the words of its output are
exactly the words of its input, in order. -/
theorem combineIntoParagraphs_words (tr : List TranscriptItem) (url : Str) :
    parasWords (combineIntoParagraphs tr url) = (tr.map itemWords).flatten := by
  have hfin := loop_stateWords url tr initState
  have hinit : stateWords initState = [] := rfl
  rw [hinit, List.nil_append] at hfin
  simp only [combineIntoParagraphs]
  split
  next h =>
    rw [parasWords_append]
    have h1 : parasWords [flushParagraph url (loop url initState tr).texts
        (loop url initState tr).timestamps
        (loop url initState tr).firstTimestamp] =
        (((loop url initState tr).texts).map wordsWS).flatten := by
      simp [parasWords, paraWords_flush_v1]
    rw [h1, ← hfin]
    rfl
  next h =>
    have he : (loop url initState tr).texts = [] := by
      by_cases h' : (loop url initState tr).texts = []
      · exact h'
      · exact absurd (by simp [h'] : (!(loop url initState tr).texts.isEmpty) = true) h
    rw [← hfin, stateWords, he]
    simp

end TranscriptViewV1

namespace TranscriptViewV2

theorem paraWords_flush_v2 (url : Str) (texts : List Str) (tss : List Nat)
    (ft : Nat) :
    paraWords (flushParagraph url texts tss ft) = (texts.map wordsWS).flatten := by
  show ([joinSp texts].map wordsWS).flatten = _
  simp [wordsWS_joinSp]

theorem stepDirect_stateWords (url : Str) (minS maxS : Nat) (b : Bool)
    (st : AsmState) (item : TranscriptItem) :
    stateWords (stepDirect url minS maxS b st item) =
      stateWords st ++ wordsWS item.text := by
  have hA : parasWords (st.paragraphs ++
      [flushParagraph url (st.texts ++ [trimWS item.text])
        (recordTimestamp st.timestamps st.firstTimestamp item.timestamp).1
        (recordTimestamp st.timestamps st.firstTimestamp item.timestamp).2]) ++
      (([] : List Str).map wordsWS).flatten =
      stateWords st ++ wordsWS item.text := by
    rw [parasWords_append]
    have h1 : parasWords [flushParagraph url (st.texts ++ [trimWS item.text])
        (recordTimestamp st.timestamps st.firstTimestamp item.timestamp).1
        (recordTimestamp st.timestamps st.firstTimestamp item.timestamp).2] =
        ((st.texts ++ [trimWS item.text]).map wordsWS).flatten := by
      simp [parasWords, paraWords_flush_v2]
    rw [h1]
    simp [stateWords, wordsWS_trim, List.append_assoc]
  have hB : parasWords st.paragraphs ++
      ((st.texts ++ [trimWS item.text]).map wordsWS).flatten =
      stateWords st ++ wordsWS item.text := by
    simp [stateWords, wordsWS_trim, List.append_assoc]
  simp only [stepDirect]
  split <;> split
  · exact hA
  · exact hB
  · exact hA
  · exact hB

theorem loopDirect_stateWords (url : Str) (minS maxS : Nat) :
    ∀ (items : List TranscriptItem) (st : AsmState),
      stateWords (loopDirect url minS maxS st items) =
        stateWords st ++ (items.map itemWords).flatten
  | [], st => by simp [loopDirect]
  | [item], st => by
    show stateWords (stepDirect url minS maxS true st item) = _
    rw [stepDirect_stateWords]
    simp [itemWords]
  | item :: next :: rest, st => by
    show stateWords (loopDirect url minS maxS
      (stepDirect url minS maxS false st item) (next :: rest)) = _
    rw [loopDirect_stateWords url minS maxS (next :: rest), stepDirect_stateWords]
    simp [itemWords, List.append_assoc]

/-- The final accumulator of `createParagraphsDirectly` is flushed exactly
when the last item's trimmed text does not match the incomplete-ending
pattern. -/
theorem loopDirect_texts_empty (url : Str) (minS maxS : Nat) :
    ∀ (items : List TranscriptItem) (st : AsmState) (lastItem : TranscriptItem),
      items.getLast? = some lastItem →
      endsWithWordCI incompleteWordsV2 (trimWS lastItem.text) = false →
      (loopDirect url minS maxS st items).texts = []
  | [], _, _, h, _ => by simp at h
  | [x], st, lastItem, h, hinc => by
    have hx : lastItem = x := by simpa using h.symm
    subst hx
    show (stepDirect url minS maxS true st lastItem).texts = []
    simp [stepDirect, hinc]
  | item :: next :: rest, st, lastItem, h, hinc => by
    show (loopDirect url minS maxS
      (stepDirect url minS maxS false st item) (next :: rest)).texts = []
    exact loopDirect_texts_empty url minS maxS (next :: rest) _ lastItem
      (by rwa [List.getLast?_cons_cons] at h) hinc

/-- Conditional coverage for `createParagraphsDirectly`. -/
theorem createParagraphsDirectly_words (minS maxS : Nat)
    (tr : List TranscriptItem) (url : Str) (lastItem : TranscriptItem)
    (hlast : tr.getLast? = some lastItem)
    (hinc : endsWithWordCI incompleteWordsV2 (trimWS lastItem.text) = false) :
    parasWords (createParagraphsDirectly minS maxS tr url) =
      (tr.map itemWords).flatten := by
  have hfin := loopDirect_stateWords url minS maxS tr initState
  have hinit : stateWords initState = [] := rfl
  rw [hinit, List.nil_append] at hfin
  have he := loopDirect_texts_empty url minS maxS tr initState lastItem hlast hinc
  rw [createParagraphsDirectly, ← hfin, stateWords, he]
  simp

end TranscriptViewV2

/-! ## Structural invariants of emitted paragraphs -/

theorem GoodPara.mono {url : Str} {U U' : List Nat} {p : ParagraphItem}
    (h : GoodPara url U p) (hU : U.Sublist U') : GoodPara url U' p := by
  obtain ⟨ts, tss, h1, h2, h3, h4, h5⟩ := h
  exact ⟨ts, tss, h1, h2.trans hU, h3, h4, h5⟩

theorem recordedTs_single (i : TranscriptItem) :
    recordedTs [i] =
      if tsTruthy i.timestamp then [i.timestamp.getD 0] else [] := by
  simp only [recordedTs, List.filterMap]
  split <;> simp_all

theorem recordedTs_cons (x : TranscriptItem) (l : List TranscriptItem) :
    recordedTs (x :: l) = recordedTs [x] ++ recordedTs l := by
  simp only [recordedTs, List.filterMap_cons]
  split <;> simp_all [List.filterMap]

theorem recordTimestamp_fst (tss : List Nat) (ft : Nat) (ts : Option Nat) :
    (recordTimestamp tss ft ts).1 =
      tss ++ (if tsTruthy ts then [ts.getD 0] else []) := by
  simp only [recordTimestamp]
  split <;> simp

theorem recordTimestamp_snd (tss : List Nat) (ft : Nat) (ts : Option Nat)
    (h : ft = tss.headD 0) :
    (recordTimestamp tss ft ts).2 = (recordTimestamp tss ft ts).1.headD 0 := by
  simp only [recordTimestamp]
  split
  · cases tss with
    | nil => simp
    | cons a l => simp [h]
  · exact h

theorem recordTimestamp_sublist {U : List Nat} (tss : List Nat) (ft : Nat)
    (ts : Option Nat) (i : TranscriptItem) (hts : i.timestamp = ts)
    (hsub : tss.Sublist U) :
    (recordTimestamp tss ft ts).1.Sublist (U ++ recordedTs [i]) := by
  rw [recordTimestamp_fst, recordedTs_single, hts]
  exact hsub.append (List.Sublist.refl _)

namespace TranscriptViewV2

theorem goodPara_flush_v2 (url : Str) (texts : List Str) {tss U : List Nat}
    {ft : Nat} (hsub : tss.Sublist U) (hft : ft = tss.headD 0) :
    GoodPara url U (flushParagraph url texts tss ft) :=
  ⟨texts, tss, rfl, hsub, hft, rfl, rfl⟩

theorem stepDirect_inv (url : Str) (minS maxS : Nat) (b : Bool)
    (st : AsmState) (item : TranscriptItem) (U : List Nat)
    (h : StInv url U st) :
    StInv url (U ++ recordedTs [item]) (stepDirect url minS maxS b st item) := by
  obtain ⟨hsub, hft, hps⟩ := h
  have hsub' := recordTimestamp_sublist st.timestamps st.firstTimestamp
    item.timestamp item rfl hsub
  have hsnd := recordTimestamp_snd st.timestamps st.firstTimestamp
    item.timestamp hft
  have hmono : ∀ p ∈ st.paragraphs, GoodPara url (U ++ recordedTs [item]) p :=
    fun p hp => (hps p hp).mono (List.sublist_append_left _ _)
  simp only [stepDirect]
  constructor
  · split <;> split <;> simp [hsub']
  constructor
  · split <;> split <;> simp [hsnd]
  · intro p hp
    revert hp
    split <;> split <;> intro hp
    · rcases List.mem_append.mp hp with hp | hp
      · exact hmono p hp
      · rw [List.mem_singleton.mp hp]
        exact goodPara_flush_v2 url _ hsub' hsnd
    · exact hmono p hp
    · rcases List.mem_append.mp hp with hp | hp
      · exact hmono p hp
      · rw [List.mem_singleton.mp hp]
        exact goodPara_flush_v2 url _ hsub' hsnd
    · exact hmono p hp

theorem loopDirect_inv (url : Str) (minS maxS : Nat) :
    ∀ (items : List TranscriptItem) (st : AsmState) (U : List Nat),
      StInv url U st →
      StInv url (U ++ recordedTs items) (loopDirect url minS maxS st items)
  | [], st, U, h => by
    show StInv url (U ++ recordedTs []) st
    simpa [recordedTs] using h
  | [x], st, U, h => by
    show StInv url _ (stepDirect url minS maxS true st x)
    exact stepDirect_inv url minS maxS true st x U h
  | x :: y :: rest, st, U, h => by
    show StInv url _ (loopDirect url minS maxS
      (stepDirect url minS maxS false st x) (y :: rest))
    have h2 := loopDirect_inv url minS maxS (y :: rest) _ _
      (stepDirect_inv url minS maxS false st x U h)
    rw [recordedTs_cons x (y :: rest)]
    rwa [List.append_assoc] at h2

theorem createParagraphsDirectly_goodPara (minS maxS : Nat)
    (tr : List TranscriptItem) (url : Str) :
    ∀ p ∈ createParagraphsDirectly minS maxS tr url,
      GoodPara url (recordedTs tr) p := by
  have h := loopDirect_inv url minS maxS tr initState []
    ⟨List.nil_sublist _, rfl, by simp [initState]⟩
  rw [List.nil_append] at h
  exact h.2.2

end TranscriptViewV2

namespace TranscriptViewV1

theorem goodPara_flush_v1 (url : Str) (texts : List Str) {tss U : List Nat}
    {ft : Nat} (hsub : tss.Sublist U) (hft : ft = tss.headD 0) :
    GoodPara url U (flushParagraph url texts tss ft) :=
  ⟨[normalizeSpaces (joinSp texts)], tss, by simp [flushParagraph, joinSp],
    hsub, hft, rfl, rfl⟩

theorem step_inv (url : Str) (b : Bool) (st : AsmState)
    (item : TranscriptItem) (U : List Nat) (h : StInv url U st) :
    StInv url (U ++ recordedTs [item]) (step url b st item) := by
  obtain ⟨hsub, hft, hps⟩ := h
  have hsub' := recordTimestamp_sublist st.timestamps st.firstTimestamp
    item.timestamp item rfl hsub
  have hsnd := recordTimestamp_snd st.timestamps st.firstTimestamp
    item.timestamp hft
  have hmono : ∀ p ∈ st.paragraphs, GoodPara url (U ++ recordedTs [item]) p :=
    fun p hp => (hps p hp).mono (List.sublist_append_left _ _)
  simp only [step]
  constructor
  · split <;> simp [hsub']
  constructor
  · split <;> simp [hsnd]
  · intro p hp
    revert hp
    split <;> intro hp
    · rcases List.mem_append.mp hp with hp | hp
      · exact hmono p hp
      · rw [List.mem_singleton.mp hp]
        exact goodPara_flush_v1 url _ hsub' hsnd
    · exact hmono p hp

theorem loop_inv (url : Str) :
    ∀ (items : List TranscriptItem) (st : AsmState) (U : List Nat),
      StInv url U st →
      StInv url (U ++ recordedTs items) (loop url st items)
  | [], st, U, h => by
    show StInv url (U ++ recordedTs []) st
    simpa [recordedTs] using h
  | [x], st, U, h => by
    show StInv url _ (step url true st x)
    exact step_inv url true st x U h
  | x :: y :: rest, st, U, h => by
    show StInv url _ (loop url (step url false st x) (y :: rest))
    have h2 := loop_inv url (y :: rest) _ _ (step_inv url false st x U h)
    rw [recordedTs_cons x (y :: rest)]
    rwa [List.append_assoc] at h2

theorem combineIntoParagraphs_goodPara (tr : List TranscriptItem) (url : Str) :
    ∀ p ∈ combineIntoParagraphs tr url, GoodPara url (recordedTs tr) p := by
  have h := loop_inv url tr initState []
    ⟨List.nil_sublist _, rfl, by simp [initState]⟩
  rw [List.nil_append] at h
  obtain ⟨hsub, hft, hps⟩ := h
  intro p hp
  rw [combineIntoParagraphs] at hp
  revert hp
  split <;> intro hp
  · rcases List.mem_append.mp hp with hp | hp
    · exact hps p hp
    · rw [List.mem_singleton.mp hp]
      exact goodPara_flush_v1 url _ hsub hft
  · exact hps p hp

end TranscriptViewV1

namespace TranscriptViewV2

theorem stepSentence_paras (url : Str) (minS maxS : Nat) (b : Bool)
    (st : AsmState) (sentence : Str) (timestamp : Nat)
    (h : ∀ p ∈ st.paragraphs, ∃ ts, p.text = [joinSp ts]) :
    ∀ p ∈ (stepSentence url minS maxS b st sentence timestamp).paragraphs,
      ∃ ts, p.text = [joinSp ts] := by
  intro p hp
  revert hp
  simp only [stepSentence]
  split <;> intro hp
  · rcases List.mem_append.mp hp with hp | hp
    · exact h p hp
    · rw [List.mem_singleton.mp hp]
      exact ⟨st.texts ++ [sentence], rfl⟩
  · exact h p hp

theorem loopSentences_paras (url : Str) (minS maxS : Nat) :
    ∀ (sentences : List Str) (tr : List TranscriptItem) (st : AsmState),
      (∀ p ∈ st.paragraphs, ∃ ts, p.text = [joinSp ts]) →
      ∀ p ∈ (loopSentences url minS maxS st sentences tr).paragraphs,
        ∃ ts, p.text = [joinSp ts]
  | [], tr, st, h => h
  | [s], tr, st, h => by
    show ∀ p ∈ (stepSentence url minS maxS true st s (headTs tr)).paragraphs, _
    exact stepSentence_paras url minS maxS true st s (headTs tr) h
  | s :: s' :: rest, tr, st, h => by
    show ∀ p ∈ (loopSentences url minS maxS
      (stepSentence url minS maxS false st s (headTs tr)) (s' :: rest)
      (tr.drop 1)).paragraphs, _
    exact loopSentences_paras url minS maxS (s' :: rest) (tr.drop 1) _
      (stepSentence_paras url minS maxS false st s (headTs tr) h)

theorem createParagraphsFromSentences_paras (minS maxS : Nat)
    (sentences : List Str) (tr : List TranscriptItem) (url : Str) :
    ∀ p ∈ createParagraphsFromSentences minS maxS sentences tr url,
      ∃ ts, p.text = [joinSp ts] :=
  loopSentences_paras url minS maxS sentences tr initState (by simp [initState])

end TranscriptViewV2

/-! ## Claim theorems -/

/-- C1: the claim states that the flush on the last input item always
fires, even when the last appended text matches the incomplete-ending
word pattern.  The code contradicts this: `createParagraphsDirectly`
guards its only push with `!isIncomplete` and has no trailing
leftover-accumulator flush, so on the single-item transcript `"and"`
(whose text matches the incomplete-ending pattern) the accumulator is
silently dropped and the output is empty — the item's text appears in no
paragraph. -/
theorem c1_createParagraphsDirectly_drops_last_incomplete :
    TranscriptViewV2.createParagraphsDirectly 2 4
      [⟨"and".toList, some 1000⟩] "https://e".toList = [] := by decide

/-- C2 (counterexample): with items `"Hello."` and `"and"` the second
assembler emits no paragraph at all — both items' words are lost, so it
is false that each item's text appears in exactly one paragraph of the
output. -/
theorem c2_counterexample_words_lost :
    TranscriptViewV2.createParagraphsDirectly 2 4
      [⟨"Hello.".toList, some 100⟩, ⟨"and".toList, some 200⟩]
      "https://e".toList = [] ∧
    (([⟨"Hello.".toList, some 100⟩, ⟨"and".toList, some 200⟩] :
      List TranscriptItem).map itemWords).flatten =
      ["Hello.".toList, "and".toList] := by
  constructor <;> decide

/-- C2 (amended): the word sequence of the output equals the word
sequence of the input — nothing lost, nothing duplicated, order kept —
unconditionally for the first assembler `combineIntoParagraphs` (its
trailing leftover flush always fires), and for `createParagraphsDirectly`
exactly when the last item's trimmed text does not match the
incomplete-ending word pattern (otherwise the trailing accumulator is
dropped, as the counterexample shows). -/
theorem c2_amended_word_coverage :
    (∀ (tr : List TranscriptItem) (url : Str),
      parasWords (TranscriptViewV1.combineIntoParagraphs tr url) =
        (tr.map itemWords).flatten) ∧
    (∀ (minS maxS : Nat) (tr : List TranscriptItem) (url : Str)
      (lastItem : TranscriptItem), tr.getLast? = some lastItem →
      endsWithWordCI incompleteWordsV2 (trimWS lastItem.text) = false →
      parasWords (TranscriptViewV2.createParagraphsDirectly minS maxS tr url) =
        (tr.map itemWords).flatten) :=
  ⟨TranscriptViewV1.combineIntoParagraphs_words,
   TranscriptViewV2.createParagraphsDirectly_words⟩

/-- Witness for C2 (amended) at concrete inputs. -/
theorem c2_amended_word_coverage_witness :
    parasWords (TranscriptViewV1.combineIntoParagraphs
      [⟨"Hello there.".toList, some 100⟩] "u".toList) =
      (([⟨"Hello there.".toList, some 100⟩] :
        List TranscriptItem).map itemWords).flatten ∧
    parasWords (TranscriptViewV2.createParagraphsDirectly 2 4
      [⟨"Hi.".toList, some 100⟩, ⟨"Bye.".toList, some 200⟩] "u".toList) =
      (([⟨"Hi.".toList, some 100⟩, ⟨"Bye.".toList, some 200⟩] :
        List TranscriptItem).map itemWords).flatten :=
  ⟨c2_amended_word_coverage.1 _ _,
   c2_amended_word_coverage.2 2 4 _ _ ⟨"Bye.".toList, some 200⟩
     (by decide) (by decide)⟩

/-- C6: when the external optimizer call fails (modelled by an
`Except.error` result), the second `combineIntoParagraphs` returns exactly
the direct (non-optimized) assembly of the same raw items, and — being a
total function — propagates no failure to its caller. -/
theorem c6_optimizer_error_falls_back_to_direct (useAITranslation : Bool)
    (kimiApiKey : Str) (minS maxS : Nat) (err : Str)
    (transcript : List TranscriptItem) (url : Str) :
    TranscriptViewV2.combineIntoParagraphs useAITranslation kimiApiKey
      minS maxS (Except.error err) transcript url =
    TranscriptViewV2.createParagraphsDirectly minS maxS transcript url := by
  simp only [TranscriptViewV2.combineIntoParagraphs]
  split <;> rfl

/-- C7 (counterexample): the first contributing fragment has timestamp 0,
but JS truthiness skips recording it (`if (item.timestamp)`), so the
emitted paragraph's start timestamp is 5000, not the first contributing
fragment's 0. -/
theorem c7_counterexample_zero_timestamp :
    TranscriptViewV2.createParagraphsDirectly 2 4
      [⟨"Hi.".toList, some 0⟩, ⟨"Bye.".toList, some 5000⟩] "u".toList =
      [⟨["Hi. Bye.".toList], 5000, some 5000,
        [mkTimeLink "u".toList 5000]⟩] := by decide

/-- C7 (amended): for both assemblers, each paragraph's start timestamp is
the head (default 0) and its end timestamp the last element of one list of
recorded timestamps — an in-order subsequence of the input's present and
non-zero timestamps; fragments whose timestamp is 0 or absent are never
recorded. -/
theorem c7_amended_recorded_timestamps :
    (∀ (tr : List TranscriptItem) (url : Str) (p : ParagraphItem),
      p ∈ TranscriptViewV1.combineIntoParagraphs tr url →
      ∃ tss : List Nat, tss.Sublist (recordedTs tr) ∧
        p.timestamp = tss.headD 0 ∧ p.endTimestamp = tss.getLast? ∧
        p.timeLinks = tss.map (mkTimeLink url)) ∧
    (∀ (minS maxS : Nat) (tr : List TranscriptItem) (url : Str)
      (p : ParagraphItem),
      p ∈ TranscriptViewV2.createParagraphsDirectly minS maxS tr url →
      ∃ tss : List Nat, tss.Sublist (recordedTs tr) ∧
        p.timestamp = tss.headD 0 ∧ p.endTimestamp = tss.getLast? ∧
        p.timeLinks = tss.map (mkTimeLink url)) := by
  constructor
  · intro tr url p hp
    obtain ⟨ts, tss, _, h2, h3, h4, h5⟩ :=
      TranscriptViewV1.combineIntoParagraphs_goodPara tr url p hp
    exact ⟨tss, h2, h3, h4, h5⟩
  · intro minS maxS tr url p hp
    obtain ⟨ts, tss, _, h2, h3, h4, h5⟩ :=
      TranscriptViewV2.createParagraphsDirectly_goodPara minS maxS tr url p hp
    exact ⟨tss, h2, h3, h4, h5⟩

/-- Witness for C7 (amended) at a concrete input. -/
theorem c7_amended_recorded_timestamps_witness :
    ∃ tss : List Nat,
      tss.Sublist (recordedTs
        [⟨"Hi.".toList, some 0⟩, ⟨"Bye.".toList, some 5000⟩]) ∧
      (⟨["Hi. Bye.".toList], 5000, some 5000,
        [mkTimeLink "u".toList 5000]⟩ : ParagraphItem).timestamp =
        tss.headD 0 ∧
      (⟨["Hi. Bye.".toList], 5000, some 5000,
        [mkTimeLink "u".toList 5000]⟩ : ParagraphItem).endTimestamp =
        tss.getLast? ∧
      (⟨["Hi. Bye.".toList], 5000, some 5000,
        [mkTimeLink "u".toList 5000]⟩ : ParagraphItem).timeLinks =
        tss.map (mkTimeLink "u".toList) :=
  c7_amended_recorded_timestamps.2 2 4
    [⟨"Hi.".toList, some 0⟩, ⟨"Bye.".toList, some 5000⟩] "u".toList
    ⟨["Hi. Bye.".toList], 5000, some 5000, [mkTimeLink "u".toList 5000]⟩
    (by decide)

/-- C9: the language classifier on the empty string: the CJK character
count is 0, the JS ratio `0/0` is `NaN` and `NaN > 0.1` is false (in the
rational embedding `0/0 = 0 > 1/10` is likewise false), so the empty
string classifies as non-CJK; totality holds by construction — the
function is defined on every string. -/
theorem c9_empty_text_not_chinese : TextOptimizer.isChineseText [] = false := by
  simp [TextOptimizer.isChineseText]

/-- C8: every time-link string of every emitted paragraph (both assembler
variants) has exactly the shape
`[<formatted-timestamp>](<base-url>&t=<floor(offsetMs/1000)>)`, with `t`
the millisecond timestamp integer-divided by 1000. -/
theorem c8_time_link_shape :
    (∀ (tr : List TranscriptItem) (url : Str) (p : ParagraphItem) (l : Str),
      p ∈ TranscriptViewV1.combineIntoParagraphs tr url → l ∈ p.timeLinks →
      ∃ ts : Nat, l = '[' :: formatTimestamp ts ++ ']' :: '(' :: url ++
        '&' :: 't' :: '=' :: natToStr (ts / 1000) ++ [')']) ∧
    (∀ (minS maxS : Nat) (tr : List TranscriptItem) (url : Str)
      (p : ParagraphItem) (l : Str),
      p ∈ TranscriptViewV2.createParagraphsDirectly minS maxS tr url →
      l ∈ p.timeLinks →
      ∃ ts : Nat, l = '[' :: formatTimestamp ts ++ ']' :: '(' :: url ++
        '&' :: 't' :: '=' :: natToStr (ts / 1000) ++ [')']) := by
  constructor
  · intro tr url p l hp hl
    obtain ⟨ts, tss, _, _, _, _, h5⟩ :=
      TranscriptViewV1.combineIntoParagraphs_goodPara tr url p hp
    rw [h5] at hl
    obtain ⟨t, _, rfl⟩ := List.mem_map.mp hl
    exact ⟨t, rfl⟩
  · intro minS maxS tr url p l hp hl
    obtain ⟨ts, tss, _, _, _, _, h5⟩ :=
      TranscriptViewV2.createParagraphsDirectly_goodPara minS maxS tr url p hp
    rw [h5] at hl
    obtain ⟨t, _, rfl⟩ := List.mem_map.mp hl
    exact ⟨t, rfl⟩

/-- Witness for C8 at a concrete input. -/
theorem c8_time_link_shape_witness :
    ∃ ts : Nat, mkTimeLink "u".toList 5000 =
      '[' :: formatTimestamp ts ++ ']' :: '(' :: "u".toList ++
        '&' :: 't' :: '=' :: natToStr (ts / 1000) ++ [')'] :=
  c8_time_link_shape.2 2 4
    [⟨"Hi.".toList, some 0⟩, ⟨"Bye.".toList, some 5000⟩] "u".toList
    ⟨["Hi. Bye.".toList], 5000, some 5000, [mkTimeLink "u".toList 5000]⟩
    (mkTimeLink "u".toList 5000) (by decide) (by decide)

/-- C10: every paragraph emitted by any of the three assembler variants
stores its text as exactly one element (the accumulator's texts joined
into a single string) — never zero, never more than one. -/
theorem c10_paragraph_text_singleton :
    (∀ (tr : List TranscriptItem) (url : Str) (p : ParagraphItem),
      p ∈ TranscriptViewV1.combineIntoParagraphs tr url →
      p.text.length = 1) ∧
    (∀ (minS maxS : Nat) (sentences : List Str) (tr : List TranscriptItem)
      (url : Str) (p : ParagraphItem),
      p ∈ TranscriptViewV2.createParagraphsFromSentences minS maxS sentences
        tr url → p.text.length = 1) ∧
    (∀ (minS maxS : Nat) (tr : List TranscriptItem) (url : Str)
      (p : ParagraphItem),
      p ∈ TranscriptViewV2.createParagraphsDirectly minS maxS tr url →
      p.text.length = 1) := by
  refine ⟨?_, ?_, ?_⟩
  · intro tr url p hp
    obtain ⟨ts, tss, h1, -⟩ :=
      TranscriptViewV1.combineIntoParagraphs_goodPara tr url p hp
    rw [h1]; rfl
  · intro minS maxS sentences tr url p hp
    obtain ⟨ts, h1⟩ := TranscriptViewV2.createParagraphsFromSentences_paras
      minS maxS sentences tr url p hp
    rw [h1]; rfl
  · intro minS maxS tr url p hp
    obtain ⟨ts, tss, h1, -⟩ :=
      TranscriptViewV2.createParagraphsDirectly_goodPara minS maxS tr url p hp
    rw [h1]; rfl

/-- Witness for C10 at a concrete input. -/
theorem c10_paragraph_text_singleton_witness :
    (⟨["Hi. Bye.".toList], 5000, some 5000,
      [mkTimeLink "u".toList 5000]⟩ : ParagraphItem).text.length = 1 :=
  c10_paragraph_text_singleton.2.2 2 4
    [⟨"Hi.".toList, some 0⟩, ⟨"Bye.".toList, some 5000⟩] "u".toList
    ⟨["Hi. Bye.".toList], 5000, some 5000, [mkTimeLink "u".toList 5000]⟩
    (by decide)

/-! ## Merger lemmas -/

theorem exists_getLast?_of_ne_nil {α : Type} {l : List α} (h : l ≠ []) :
    ∃ a, l.getLast? = some a :=
  ⟨l.getLast h, List.getLast?_eq_getLast l h⟩

theorem mergeStepShape_youtube : MergeStepShape TranscriptFetcher.mergeStep := by
  constructor
  · intro cur; rfl
  · intro acc last cur h
    simp only [TranscriptFetcher.mergeStep, h]
    split
    · exact Or.inl ⟨last.text ++ ' ' :: cur.text, rfl⟩
    · exact Or.inr rfl

theorem mergeStepShape_bilibili : MergeStepShape BilibiliTranscript.mergeStep := by
  constructor
  · intro cur; rfl
  · intro acc last cur h
    simp only [BilibiliTranscript.mergeStep, h]
    split
    · exact Or.inl ⟨trimWS (last.text ++ ' ' :: cur.text), rfl⟩
    · exact Or.inr rfl

theorem mergeStep_ne_nil {step : List TranscriptLine → TranscriptLine →
    List TranscriptLine} (h : MergeStepShape step) (acc : List TranscriptLine)
    (cur : TranscriptLine) : step acc cur ≠ [] := by
  by_cases ha : acc = []
  · subst ha; rw [h.1]; simp
  · obtain ⟨last, hl⟩ := exists_getLast?_of_ne_nil ha
    rcases h.2 acc last cur hl with ⟨t, he⟩ | he <;> rw [he] <;> simp

theorem mergeFold_ne_nil {step : List TranscriptLine → TranscriptLine →
    List TranscriptLine} (h : MergeStepShape step) :
    ∀ (lines acc : List TranscriptLine), acc ≠ [] →
      List.foldl step acc lines ≠ []
  | [], acc, ha => ha
  | x :: rest, acc, ha => by
    show List.foldl step (step acc x) rest ≠ []
    exact mergeFold_ne_nil h rest (step acc x) (mergeStep_ne_nil h acc x)

theorem mergeStep_head {step : List TranscriptLine → TranscriptLine →
    List TranscriptLine} (h : MergeStepShape step) (acc : List TranscriptLine)
    (cur : TranscriptLine) (ha : acc ≠ []) :
    (step acc cur).head?.map TranscriptLine.offset =
      acc.head?.map TranscriptLine.offset := by
  obtain ⟨last, hl⟩ := exists_getLast?_of_ne_nil ha
  rcases h.2 acc last cur hl with ⟨t, he⟩ | he <;> rw [he]
  · cases acc with
    | nil => exact absurd rfl ha
    | cons a l =>
      cases l with
      | nil =>
        obtain rfl : a = last := by simpa using hl
        simp
      | cons b l' => simp [List.dropLast]
  · cases acc with
    | nil => exact absurd rfl ha
    | cons a l => simp

theorem mergeFold_head {step : List TranscriptLine → TranscriptLine →
    List TranscriptLine} (h : MergeStepShape step) :
    ∀ (lines acc : List TranscriptLine), acc ≠ [] →
      (List.foldl step acc lines).head?.map TranscriptLine.offset =
        acc.head?.map TranscriptLine.offset
  | [], acc, _ => rfl
  | x :: rest, acc, ha => by
    show (List.foldl step (step acc x) rest).head?.map TranscriptLine.offset = _
    rw [mergeFold_head h rest (step acc x) (mergeStep_ne_nil h acc x)]
    exact mergeStep_head h acc x ha

theorem mergeStep_lastEnd {step : List TranscriptLine → TranscriptLine →
    List TranscriptLine} (h : MergeStepShape step) (acc : List TranscriptLine)
    (cur : TranscriptLine) :
    (step acc cur).getLast?.map lineEnd = some (lineEnd cur) := by
  by_cases ha : acc = []
  · subst ha; rw [h.1]; simp
  · obtain ⟨last, hl⟩ := exists_getLast?_of_ne_nil ha
    rcases h.2 acc last cur hl with ⟨t, he⟩ | he <;> rw [he]
    · simp [lineEnd]
    · simp

theorem mergeFold_lastEnd {step : List TranscriptLine → TranscriptLine →
    List TranscriptLine} (h : MergeStepShape step) :
    ∀ (lines acc : List TranscriptLine), lines ≠ [] →
      (List.foldl step acc lines).getLast?.map lineEnd =
        lines.getLast?.map lineEnd
  | [], _, hl => absurd rfl hl
  | [x], acc, _ => by
    show (step acc x).getLast?.map lineEnd = _
    rw [mergeStep_lastEnd h]
    simp
  | x :: y :: rest, acc, _ => by
    show (List.foldl step (step acc x) (y :: rest)).getLast?.map lineEnd = _
    rw [mergeFold_lastEnd h (y :: rest) (step acc x) (by simp),
      List.getLast?_cons_cons]

theorem mergeStep_offsets {step : List TranscriptLine → TranscriptLine →
    List TranscriptLine} (h : MergeStepShape step) (acc : List TranscriptLine)
    (cur : TranscriptLine) :
    ((step acc cur).map TranscriptLine.offset).Sublist
      (acc.map TranscriptLine.offset ++ [cur.offset]) := by
  by_cases ha : acc = []
  · subst ha; rw [h.1]; simp
  · obtain ⟨last, hl⟩ := exists_getLast?_of_ne_nil ha
    rcases h.2 acc last cur hl with ⟨t, he⟩ | he <;> rw [he]
    · have hacc : acc.dropLast ++ [last] = acc := by
        obtain rfl : acc.getLast ha = last := by
          have hg := List.getLast?_eq_getLast acc ha
          rw [hl] at hg
          exact Option.some_inj.mp hg.symm
        exact List.dropLast_append_getLast ha
      have : (acc.dropLast ++
          [({ text := t, duration := cur.offset + cur.duration - last.offset
              offset := last.offset } : TranscriptLine)]).map
            TranscriptLine.offset = acc.map TranscriptLine.offset := by
        conv_rhs => rw [← hacc]
        simp
      rw [this]
      exact List.sublist_append_left _ _
    · simp

theorem mergeFold_offsets {step : List TranscriptLine → TranscriptLine →
    List TranscriptLine} (h : MergeStepShape step) :
    ∀ (lines acc : List TranscriptLine),
      ((List.foldl step acc lines).map TranscriptLine.offset).Sublist
        (acc.map TranscriptLine.offset ++ lines.map TranscriptLine.offset)
  | [], acc => by simp
  | x :: rest, acc => by
    show ((List.foldl step (step acc x) rest).map TranscriptLine.offset).Sublist _
    have h1 := mergeFold_offsets h rest (step acc x)
    have h2 := (mergeStep_offsets h acc x).append
      (List.Sublist.refl (rest.map TranscriptLine.offset))
    have h3 := h1.trans h2
    rw [List.append_assoc] at h3
    simpa using h3

theorem mem_dropWhileWS_of_mem {c : Char} {l : Str} (hc : isWSJS c = false)
    (hm : c ∈ l) : c ∈ l.dropWhile isWSJS := by
  induction l with
  | nil => cases hm
  | cons d ds ih =>
    by_cases hd : isWSJS d
    · rw [List.dropWhile_cons_of_pos (by simpa using hd)]
      rcases List.mem_cons.mp hm with rfl | hm'
      · rw [hd] at hc; cases hc
      · exact ih hm'
    · rw [List.dropWhile_cons_of_neg (by simpa using hd)]
      exact hm

theorem mem_trimRightWS_of_mem {c : Char} {l : Str} (hc : isWSJS c = false)
    (hm : c ∈ l) : c ∈ trimRightWS l := by
  induction l with
  | nil => cases hm
  | cons d ds ih =>
    show c ∈ (if trimRightWS ds = [] && isWSJS d then [] else d :: trimRightWS ds)
    by_cases h1 : trimRightWS ds = [] <;> by_cases h2 : isWSJS d
    · rcases List.mem_cons.mp hm with rfl | hm'
      · rw [h2] at hc; cases hc
      · have := (trimRightWS_eq_nil_iff ds).mp h1 c hm'
        rw [this] at hc; cases hc
    · rw [if_neg (by simp [h2])]
      rcases List.mem_cons.mp hm with rfl | hm'
      · exact List.mem_cons_self _ _
      · exact List.mem_cons_of_mem _ (ih hm')
    · rw [if_neg (by simp [h1])]
      rcases List.mem_cons.mp hm with rfl | hm'
      · exact List.mem_cons_self _ _
      · exact List.mem_cons_of_mem _ (ih hm')
    · rw [if_neg (by simp [h1])]
      rcases List.mem_cons.mp hm with rfl | hm'
      · exact List.mem_cons_self _ _
      · exact List.mem_cons_of_mem _ (ih hm')

theorem mem_trimWS_of_mem {c : Char} {l : Str} (hc : isWSJS c = false)
    (hm : c ∈ l) : c ∈ trimWS l :=
  mem_trimRightWS_of_mem hc (mem_dropWhileWS_of_mem hc hm)

theorem isSentEndChar_not_ws {c : Char} (h : isSentEndChar c = true) :
    isWSJS c = false := by
  simp only [isSentEndChar, Bool.or_eq_true, decide_eq_true_eq] at h
  rcases h with ((((h | h) | h) | h) | h) | h <;> subst h <;> decide

theorem isSentEndChar_endPunctB {c : Char} (h : isSentEndChar c = true) :
    BilibiliTranscript.isEndPunctB c = true := by
  simp only [isSentEndChar, Bool.or_eq_true, decide_eq_true_eq] at h
  rcases h with ((((h | h) | h) | h) | h) | h <;> subst h <;> decide

/-- Ending in a sentence terminator (as the assemblers test it) implies
the Bilibili complete-sentence predicate, whose punctuation test is a
contains-anywhere test on the trimmed text. -/
theorem sentenceEnd_implies_completeB (t : Str)
    (h : sentenceEndTest t = true) :
    BilibiliTranscript.isCompleteSentence t = true := by
  cases hm : t.reverse.dropWhile isWSJS with
  | nil =>
    have h' : False := by
      unfold sentenceEndTest at h
      rw [hm] at h
      cases h
    cases h'
  | cons c r =>
    have h' : isSentEndChar c = true := by
      unfold sentenceEndTest at h
      rw [hm] at h
      exact h
    have hcmem : c ∈ t := by
      have h1 : c ∈ t.reverse.dropWhile isWSJS := by
        rw [hm]; exact List.mem_cons_self _ _
      exact List.mem_reverse.mp ((List.dropWhile_sublist _).subset h1)
    have hnw := isSentEndChar_not_ws h'
    have hany : (trimWS t).any BilibiliTranscript.isEndPunctB = true :=
      List.any_eq_true.mpr ⟨c, mem_trimWS_of_mem hnw hcmem,
        isSentEndChar_endPunctB h'⟩
    unfold BilibiliTranscript.isCompleteSentence
    simp [hany]

/-- C3 (counterexample): the YouTube-fetcher merger has no
complete-sentence condition, so the fragment `"world"` following the
accumulated fragment `"Hello."` — which ends in terminal punctuation —
IS merged into it (gap 0 < 500 and duration 500 < 1000). -/
theorem c3_counterexample_youtube_merges_after_period :
    TranscriptFetcher.mergeShortSubtitles
      [⟨"Hello.".toList, 500, 0⟩, ⟨"world".toList, 500, 500⟩] =
      [⟨"Hello. world".toList, 1000, 0⟩] ∧
    sentenceEndTest "Hello.".toList = true := by
  constructor <;> decide

/-- C3 (amended): the three-condition rule holds for the Bilibili merger:
a new fragment is merged into the last accumulated fragment only when the
gap/duration condition, the merged-length condition and the
not-a-complete-sentence condition (terminal punctuation anywhere in the
trimmed text, or a topic-starter prefix) all hold; in particular a
fragment following an accumulated fragment that ends in terminal
punctuation is never merged.  The YouTube-variant merger checks only the
first two conditions, as the counterexample shows. -/
theorem c3_amended_bilibili_merge_conditions (acc : List TranscriptLine)
    (cur last : TranscriptLine) (h : acc.getLast? = some last) :
    (¬((cur.duration < 1000 ∨
        cur.offset - (last.offset + last.duration) < 300) ∧
        (last.text ++ cur.text).length ≤ 100 ∧
        BilibiliTranscript.isCompleteSentence last.text = false) →
      BilibiliTranscript.mergeStep acc cur = acc ++ [cur]) ∧
    (sentenceEndTest last.text = true →
      BilibiliTranscript.mergeStep acc cur = acc ++ [cur]) := by
  constructor
  · intro hn
    simp only [BilibiliTranscript.mergeStep, h]
    split
    next hc =>
      exfalso
      apply hn
      simp only [Bool.and_eq_true, Bool.or_eq_true, decide_eq_true_eq,
        Bool.not_eq_true'] at hc
      tauto
    next => rfl
  · intro hse
    have hcomp := sentenceEnd_implies_completeB last.text hse
    simp only [BilibiliTranscript.mergeStep, h]
    split
    next hc =>
      simp only [Bool.and_eq_true, Bool.or_eq_true, decide_eq_true_eq,
        Bool.not_eq_true'] at hc
      simp [hcomp] at hc
    next => rfl

/-- Witness for C3 (amended) at a concrete input. -/
theorem c3_amended_bilibili_merge_conditions_witness :
    BilibiliTranscript.mergeStep [⟨"Hello.".toList, 500, 0⟩]
      ⟨"world".toList, 500, 500⟩ =
      [⟨"Hello.".toList, 500, 0⟩, ⟨"world".toList, 500, 500⟩] :=
  (c3_amended_bilibili_merge_conditions [⟨"Hello.".toList, 500, 0⟩]
    ⟨"world".toList, 500, 500⟩ ⟨"Hello.".toList, 500, 0⟩ (by decide)).2
    (by decide)

/-- C4 (counterexample): merging sets the accumulated duration to
`current.offset + current.duration - last.offset`, so when the merged-in
fragment ends (at 200 ms) before the accumulated fragment's end (2000 ms)
the covered time range SHRINKS from [0, 2000] to [0, 200] — refuting
"never decreases the total covered time range ... even when a merged-in
fragment's end time lies before the accumulated fragment's current end
time". -/
theorem c4_counterexample_covered_range_shrinks :
    TranscriptFetcher.mergeShortSubtitles
      [⟨"a".toList, 2000, 0⟩, ⟨"b".toList, 100, 100⟩] =
      [⟨"a b".toList, 200, 0⟩] ∧
    ([⟨"a".toList, 2000, 0⟩, ⟨"b".toList, 100, 100⟩] :
      List TranscriptLine).map lineEnd = [2000, 200] ∧
    (TranscriptFetcher.mergeShortSubtitles
      [⟨"a".toList, 2000, 0⟩, ⟨"b".toList, 100, 100⟩]).map lineEnd =
      [200] := by
  refine ⟨by decide, by decide, by decide⟩

theorem mergeShortSubtitles_props {step : List TranscriptLine →
    TranscriptLine → List TranscriptLine} (h : MergeStepShape step)
    (lines : List TranscriptLine) :
    ((List.foldl step [] lines).map TranscriptLine.offset).Sublist
      (lines.map TranscriptLine.offset) ∧
    (List.foldl step [] lines).head?.map TranscriptLine.offset =
      lines.head?.map TranscriptLine.offset ∧
    (List.foldl step [] lines).getLast?.map lineEnd =
      lines.getLast?.map lineEnd := by
  refine ⟨?_, ?_, ?_⟩
  · simpa using mergeFold_offsets h lines []
  · cases lines with
    | nil => rfl
    | cons x rest =>
      show (List.foldl step (step [] x) rest).head?.map TranscriptLine.offset = _
      rw [h.1, mergeFold_head h rest [x] (by simp)]
      rfl
  · cases lines with
    | nil => rfl
    | cons x rest => exact mergeFold_lastEnd h (x :: rest) [] (by simp)

/-- C4 (amended): both mergers never reorder fragments — the output
offsets are an in-order subsequence of the input offsets — and they
preserve the first fragment's offset and the last fragment's end time
exactly (on merge the accumulated end becomes the merged-in fragment's
end).  The full covered range (maximum end) is therefore preserved for
inputs whose end times are non-decreasing, but can shrink when a merged
fragment ends before the accumulated end, as the counterexample shows. -/
theorem c4_amended_no_reorder_and_endpoints (lines : List TranscriptLine) :
    ((TranscriptFetcher.mergeShortSubtitles lines).map
      TranscriptLine.offset).Sublist (lines.map TranscriptLine.offset) ∧
    (TranscriptFetcher.mergeShortSubtitles lines).head?.map
      TranscriptLine.offset = lines.head?.map TranscriptLine.offset ∧
    (TranscriptFetcher.mergeShortSubtitles lines).getLast?.map lineEnd =
      lines.getLast?.map lineEnd ∧
    ((BilibiliTranscript.mergeShortSubtitles lines).map
      TranscriptLine.offset).Sublist (lines.map TranscriptLine.offset) ∧
    (BilibiliTranscript.mergeShortSubtitles lines).head?.map
      TranscriptLine.offset = lines.head?.map TranscriptLine.offset ∧
    (BilibiliTranscript.mergeShortSubtitles lines).getLast?.map lineEnd =
      lines.getLast?.map lineEnd := by
  obtain ⟨y1, y2, y3⟩ := mergeShortSubtitles_props mergeStepShape_youtube lines
  obtain ⟨b1, b2, b3⟩ := mergeShortSubtitles_props mergeStepShape_bilibili lines
  exact ⟨y1, y2, y3, b1, b2, b3⟩

/-! ## Character-class facts for the idempotence analysis -/

theorem charToNat_inj {a b : Char} (h : a.toNat = b.toNat) : a = b := by
  have h2 := congrArg Char.ofNat h
  rwa [Char.ofNat_toNat, Char.ofNat_toNat] at h2

theorem ofNat_toNat_of_upper {n : Nat} (h1 : 65 ≤ n) (h2 : n ≤ 90) :
    (Char.ofNat n).toNat = n := by
  have hv : n.isValidChar := Or.inl (by omega)
  simp [Char.ofNat, hv]
  rfl

theorem isLetterOrSpace_toNat {c : Char} (h : isLetterOrSpace c = true) :
    c.toNat = 32 ∨ (65 ≤ c.toNat ∧ c.toNat ≤ 90) ∨
      (97 ≤ c.toNat ∧ c.toNat ≤ 122) := by
  simp only [isLetterOrSpace, isAsciiLetter, Bool.or_eq_true, Bool.and_eq_true,
    decide_eq_true_eq] at h
  rcases h with (⟨h1, h2⟩ | ⟨h1, h2⟩) | h
  · exact Or.inr (Or.inr ⟨h1, h2⟩)
  · exact Or.inr (Or.inl ⟨h1, h2⟩)
  · subst h; exact Or.inl rfl

theorem range_not_ws {c : Char}
    (h : (65 ≤ c.toNat ∧ c.toNat ≤ 90) ∨ (97 ≤ c.toNat ∧ c.toNat ≤ 122)) :
    isWSJS c = false := by
  simp only [isWSJS]
  rcases h with ⟨h1, h2⟩ | ⟨h1, h2⟩ <;> (simp; omega)

theorem letter_not_ws {c : Char} (h : isAsciiLetter c = true) :
    isWSJS c = false := by
  apply range_not_ws
  simp only [isAsciiLetter, Bool.or_eq_true, Bool.and_eq_true,
    decide_eq_true_eq] at h
  tauto

theorem class_nonws_letter {c : Char} (h : isLetterOrSpace c = true)
    (hw : isWSJS c = false) : isAsciiLetter c = true := by
  simp only [isLetterOrSpace, Bool.or_eq_true, decide_eq_true_eq] at h
  rcases h with h | rfl
  · exact h
  · cases hw

theorem class_ws_eq_space {c : Char} (h : isLetterOrSpace c = true)
    (hw : isWSJS c = true) : c = ' ' := by
  rcases isLetterOrSpace_toNat h with h32 | hr | hr
  · exact charToNat_inj (by rw [h32]; rfl)
  · rw [range_not_ws (Or.inl hr)] at hw; cases hw
  · rw [range_not_ws (Or.inr hr)] at hw; cases hw

theorem class_not_punct {c : Char} (h : isLetterOrSpace c = true) :
    isPunctE c = false := by
  cases hp : isPunctE c
  · rfl
  · exfalso
    simp only [isPunctE, Bool.or_eq_true, decide_eq_true_eq] at hp
    rcases hp with (rfl | rfl) | rfl <;> exact absurd h (by decide)

theorem class_not_bracket {c : Char} (h : isLetterOrSpace c = true) :
    isSquareBracketChar c = false := by
  cases hp : isSquareBracketChar c
  · rfl
  · exfalso
    simp only [isSquareBracketChar, Bool.or_eq_true, decide_eq_true_eq] at hp
    rcases hp with ((rfl | rfl) | rfl) | rfl <;> exact absurd h (by decide)

theorem class_ne_paren {c : Char} (h : isLetterOrSpace c = true) :
    c ≠ '(' := by
  intro hc; subst hc; exact absurd h (by decide)

theorem class_ne_brace {c : Char} (h : isLetterOrSpace c = true) :
    c ≠ '\x7b' := by
  intro hc; subst hc; exact absurd h (by decide)

theorem class_not_cjk {c : Char} (h : isLetterOrSpace c = true) :
    isCJKCharJS c = false := by
  simp only [isCJKCharJS]
  rcases isLetterOrSpace_toNat h with h32 | ⟨h1, h2⟩ | ⟨h1, h2⟩ <;>
    (simp; omega)

theorem class_space : isLetterOrSpace ' ' = true := by decide

theorem class_dot : isLetterOrSpace '.' = false := by decide

/-! ## Facts about collapseWS -/

theorem mem_collapseWS {c : Char} : ∀ {s : Str}, c ∈ collapseWS s →
    c = ' ' ∨ (c ∈ s ∧ isWSJS c = false)
  | [], h => by cases h
  | [c₁], h => by
    by_cases h1 : isWSJS c₁
    · simp [collapseWS, h1] at h
      exact Or.inl h
    · simp [collapseWS, h1] at h
      subst h
      exact Or.inr ⟨by simp, by simpa using h1⟩
  | c₁ :: c₂ :: rest, h => by
    by_cases h1 : isWSJS c₁ <;> by_cases h2 : isWSJS c₂
    · rw [collapseWS, if_pos (by simp [h1, h2])] at h
      rcases mem_collapseWS h with h' | ⟨hm, hw⟩
      · exact Or.inl h'
      · exact Or.inr ⟨List.mem_cons_of_mem _ hm, hw⟩
    all_goals
      rw [collapseWS, if_neg (by simp [h1, h2])] at h
      rcases List.mem_cons.mp h with h' | h'
    · rw [if_pos h1] at h'
      exact Or.inl h'
    · rcases mem_collapseWS h' with h'' | ⟨hm, hw⟩
      · exact Or.inl h''
      · exact Or.inr ⟨List.mem_cons_of_mem _ hm, hw⟩
    · rw [if_neg h1] at h'
      subst h'
      exact Or.inr ⟨by simp, by simpa using h1⟩
    · rcases mem_collapseWS h' with h'' | ⟨hm, hw⟩
      · exact Or.inl h''
      · exact Or.inr ⟨List.mem_cons_of_mem _ hm, hw⟩
    · rw [if_neg h1] at h'
      subst h'
      exact Or.inr ⟨by simp, by simpa using h1⟩
    · rcases mem_collapseWS h' with h'' | ⟨hm, hw⟩
      · exact Or.inl h''
      · exact Or.inr ⟨List.mem_cons_of_mem _ hm, hw⟩

theorem collapseWS_head_nonws {c : Char} (cs : Str) (h : isWSJS c = false) :
    ∃ t, collapseWS (c :: cs) = c :: t := by
  cases cs with
  | nil => exact ⟨[], by simp [collapseWS, h]⟩
  | cons c₂ r => exact ⟨collapseWS (c₂ :: r), by simp [collapseWS, h]⟩

theorem noDoubleWS_collapse : ∀ s : Str, NoDoubleWS (collapseWS s)
  | [] => by simp [NoDoubleWS, collapseWS]
  | [c] => by
    by_cases h : isWSJS c <;> simp [NoDoubleWS, collapseWS, h]
  | c₁ :: c₂ :: rest => by
    have ih := noDoubleWS_collapse (c₂ :: rest)
    by_cases h1 : isWSJS c₁ <;> by_cases h2 : isWSJS c₂
    · rw [collapseWS, if_pos (by simp [h1, h2])]
      exact ih
    · rw [collapseWS, if_neg (by simp [h1, h2]), if_pos h1]
      obtain ⟨t, ht⟩ := collapseWS_head_nonws rest (by simpa using h2)
      rw [ht] at ih ⊢
      exact List.chain'_cons.mpr ⟨Or.inr (by simpa using h2), ih⟩
    · rw [collapseWS, if_neg (by simp [h1]), if_neg h1]
      exact List.chain'_cons'.mpr
        ⟨fun y _ => Or.inl (by simpa using h1), ih⟩
    · rw [collapseWS, if_neg (by simp [h1]), if_neg h1]
      exact List.chain'_cons'.mpr
        ⟨fun y _ => Or.inl (by simpa using h1), ih⟩

theorem wsOnlySpace_collapse (s : Str) : wsOnlySpace (collapseWS s) := by
  intro c hc hw
  rcases mem_collapseWS hc with h | ⟨_, hnw⟩
  · exact h
  · rw [hnw] at hw; cases hw

theorem collapseWS_eq_self : ∀ {s : Str}, NoDoubleWS s → wsOnlySpace s →
    collapseWS s = s
  | [], _, _ => rfl
  | [c], _, hos => by
    by_cases h : isWSJS c
    · have hc : c = ' ' := hos c (by simp) (by simpa using h)
      subst hc; simp [collapseWS]
    · simp [collapseWS, h]
  | c₁ :: c₂ :: rest, hnd, hos => by
    have hch := List.chain'_cons.mp hnd
    have hcond : ¬(isWSJS c₁ && isWSJS c₂) = true := by
      rcases hch.1 with h | h <;> simp [h]
    rw [collapseWS, if_neg hcond]
    have ih := collapseWS_eq_self hch.2
      (fun c hc hw => hos c (List.mem_cons_of_mem _ hc) hw)
    rw [ih]
    by_cases h1 : isWSJS c₁
    · have hc : c₁ = ' ' := hos c₁ (by simp) (by simpa using h1)
      rw [if_pos h1, hc]
    · rw [if_neg h1]

theorem collapseWS_length_le : ∀ s : Str, (collapseWS s).length ≤ s.length
  | [] => le_refl _
  | [c] => by by_cases h : isWSJS c <;> simp [collapseWS, h]
  | c₁ :: c₂ :: rest => by
    have ih := collapseWS_length_le (c₂ :: rest)
    by_cases hb : (isWSJS c₁ && isWSJS c₂) = true
    · rw [collapseWS, if_pos hb]
      exact le_trans ih (by simp)
    · rw [collapseWS, if_neg hb]
      simpa using ih

theorem mem_collapseWS_of_mem {c : Char} (hnw : isWSJS c = false) :
    ∀ {s : Str}, c ∈ s → c ∈ collapseWS s
  | [], h => by cases h
  | [c₁], h => by
    rcases List.mem_cons.mp h with rfl | h'
    · simp [collapseWS, hnw]
    · cases h'
  | c₁ :: c₂ :: rest, h => by
    by_cases hb : (isWSJS c₁ && isWSJS c₂) = true
    · rw [collapseWS, if_pos hb]
      rcases List.mem_cons.mp h with rfl | h'
      · rw [hnw] at hb; simp at hb
      · exact mem_collapseWS_of_mem hnw h'
    · rw [collapseWS, if_neg hb]
      rcases List.mem_cons.mp h with rfl | h'
      · rw [if_neg (by simp [hnw])]
        exact List.mem_cons_self _ _
      · exact List.mem_cons_of_mem _ (mem_collapseWS_of_mem hnw h')

/-! ## Facts about trimming -/

theorem trimRightWS_prefix : ∀ s : Str, ∃ t, trimRightWS s ++ t = s
  | [] => ⟨[], rfl⟩
  | c :: cs => by
    obtain ⟨t, ht⟩ := trimRightWS_prefix cs
    by_cases hb : (trimRightWS cs = [] && isWSJS c) = true
    · exact ⟨c :: cs, by show (if _ then _ else _) ++ _ = _; rw [if_pos hb]; rfl⟩
    · refine ⟨t, ?_⟩
      show (if _ then _ else _) ++ _ = _
      rw [if_neg hb, List.cons_append, ht]

theorem trimRightWS_getLast_not_ws :
    ∀ {s : Str} {c : Char}, (trimRightWS s).getLast? = some c →
      isWSJS c = false
  | [], c, h => by simp [trimRightWS] at h
  | d :: ds, c, h => by
    revert h
    show (if trimRightWS ds = [] && isWSJS d then []
      else d :: trimRightWS ds).getLast? = some c → _
    by_cases hb : (trimRightWS ds = [] && isWSJS d) = true
    · rw [if_pos hb]; intro h; simp at h
    · rw [if_neg hb]
      intro h
      cases hr : trimRightWS ds with
      | nil =>
        rw [hr] at h
        simp at h
        subst h
        rw [hr] at hb
        simpa using hb
      | cons e es =>
        rw [hr, List.getLast?_cons_cons] at h
        exact trimRightWS_getLast_not_ws (s := ds) (by rw [hr]; exact h)

theorem trimRightWS_eq_self :
    ∀ {s : Str}, (∀ d, s.getLast? = some d → isWSJS d = false) →
      trimRightWS s = s
  | [], _ => rfl
  | [c], h => by
    have hc := h c (by simp)
    show (if trimRightWS [] = [] && isWSJS c then [] else c :: trimRightWS []) = _
    rw [trimRightWS]
    simp [hc]
  | c :: d :: ds, h => by
    have ih := trimRightWS_eq_self (s := d :: ds)
      (fun e he => h e (by rw [List.getLast?_cons_cons]; exact he))
    show (if trimRightWS (d :: ds) = [] && isWSJS c then []
      else c :: trimRightWS (d :: ds)) = _
    rw [ih, if_neg (by simp)]

theorem trimRightWS_snoc_nonws {c : Char} (h : isWSJS c = false) (x : Str) :
    trimRightWS (x ++ [c]) = x ++ [c] :=
  trimRightWS_eq_self fun d hd => by
    rw [List.getLast?_concat] at hd
    cases hd
    exact h

theorem trimRightWS_snoc_ws {c : Char} (h : isWSJS c = true) :
    ∀ x : Str, trimRightWS (x ++ [c]) = trimRightWS x
  | [] => by
    show trimRightWS [c] = trimRightWS []
    simp [trimRightWS, h]
  | d :: x' => by
    show (if trimRightWS (x' ++ [c]) = [] && isWSJS d then []
      else d :: trimRightWS (x' ++ [c])) = _
    rw [trimRightWS_snoc_ws h x']
    rfl

theorem dropWhileWS_head_not_ws :
    ∀ {s : Str} {c : Char}, (s.dropWhile isWSJS).head? = some c →
      isWSJS c = false
  | [], c, h => by simp at h
  | d :: ds, c, h => by
    by_cases hd : isWSJS d
    · rw [List.dropWhile_cons_of_pos (by simpa using hd)] at h
      exact dropWhileWS_head_not_ws h
    · rw [List.dropWhile_cons_of_neg (by simpa using hd)] at h
      simp at h
      subst h
      simpa using hd

theorem dropWhileWS_eq_self {s : Str}
    (h : ∀ c, s.head? = some c → isWSJS c = false) :
    s.dropWhile isWSJS = s := by
  cases s with
  | nil => rfl
  | cons c cs => exact List.dropWhile_cons_of_neg (by simpa using h c rfl)

theorem trimWS_head_not_ws {s : Str} {c : Char}
    (h : (trimWS s).head? = some c) : isWSJS c = false := by
  obtain ⟨t, ht⟩ := trimRightWS_prefix (s.dropWhile isWSJS)
  cases hx : trimRightWS (s.dropWhile isWSJS) with
  | nil => rw [trimWS, hx] at h; simp at h
  | cons a r =>
    rw [trimWS, hx] at h
    simp at h
    subst h
    apply dropWhileWS_head_not_ws (s := s)
    rw [← ht, hx]
    simp

theorem trimWS_getLast_not_ws {s : Str} {c : Char}
    (h : (trimWS s).getLast? = some c) : isWSJS c = false :=
  trimRightWS_getLast_not_ws h

theorem trimWS_eq_self {s : Str}
    (hh : ∀ c, s.head? = some c → isWSJS c = false)
    (hl : ∀ c, s.getLast? = some c → isWSJS c = false) : trimWS s = s := by
  rw [trimWS, dropWhileWS_eq_self hh, trimRightWS_eq_self hl]

theorem mem_of_mem_trimRightWS {c : Char} {s : Str} (h : c ∈ trimRightWS s) :
    c ∈ s := by
  obtain ⟨t, ht⟩ := trimRightWS_prefix s
  rw [← ht]
  exact List.mem_append_left _ h

theorem mem_of_mem_trimWS {c : Char} {s : Str} (h : c ∈ trimWS s) : c ∈ s :=
  (List.dropWhile_sublist _).subset (mem_of_mem_trimRightWS h)

theorem trimWS_length_le (s : Str) : (trimWS s).length ≤ s.length := by
  obtain ⟨t, ht⟩ := trimRightWS_prefix (s.dropWhile isWSJS)
  have h1 : (trimWS s).length ≤ (s.dropWhile isWSJS).length := by
    conv_rhs => rw [← ht]
    rw [trimWS]
    simp
  exact le_trans h1 (List.dropWhile_sublist _).length_le

theorem noDoubleWS_append_left {l₁ l₂ : Str} (h : NoDoubleWS (l₁ ++ l₂)) :
    NoDoubleWS l₁ :=
  (List.chain'_append.mp h).1

theorem noDoubleWS_append_right {l₁ l₂ : Str} (h : NoDoubleWS (l₁ ++ l₂)) :
    NoDoubleWS l₂ :=
  (List.chain'_append.mp h).2.1

theorem noDoubleWS_trimWS {s : Str} (h : NoDoubleWS s) :
    NoDoubleWS (trimWS s) := by
  have h1 : NoDoubleWS (s.dropWhile isWSJS) := by
    have hta := List.takeWhile_append_dropWhile (p := isWSJS) (l := s)
    rw [← hta] at h
    exact noDoubleWS_append_right h
  obtain ⟨t, ht⟩ := trimRightWS_prefix (s.dropWhile isWSJS)
  rw [← ht] at h1
  exact noDoubleWS_append_left h1

theorem wsOnlySpace_of_subset {l₁ l₂ : Str} (hsub : ∀ c ∈ l₁, c ∈ l₂)
    (h : wsOnlySpace l₂) : wsOnlySpace l₁ :=
  fun c hc hw => h c (hsub c hc) hw

/-! ## Facts about bracket removal, the punctuation split and capFirst -/

theorem removeSquareBrackets_eq_self {s : Str}
    (h : ∀ c ∈ s, isSquareBracketChar c = false) :
    removeSquareBrackets s = s := by
  rw [removeSquareBrackets]
  exact List.filter_eq_self.mpr (fun a ha => by simp [h a ha])

theorem removeLazyGo_eq_self {opn close : Char} {s : Str} (h : opn ∉ s) :
    ∀ fuel, removeLazyGo opn close fuel s = s := by
  induction s with
  | nil => intro fuel; cases fuel <;> rfl
  | cons c cs ih =>
    intro fuel
    cases fuel with
    | zero => rfl
    | succ f =>
      have hc : ¬(c = opn) := fun hh => h (hh ▸ List.mem_cons_self _ _)
      show (if c = opn then _ else c :: removeLazyGo opn close f cs) = _
      rw [if_neg hc, ih (fun hm => h (List.mem_cons_of_mem _ hm)) f]

theorem removeParens_eq_self {s : Str} (h : '(' ∉ s) : removeParens s = s :=
  removeLazyGo_eq_self h _

theorem removeBraces_eq_self {s : Str} (h : '\x7b' ∉ s) : removeBraces s = s :=
  removeLazyGo_eq_self h _

theorem splitPunctKeep_no_punct :
    ∀ {s : Str}, (∀ c ∈ s, isPunctE c = false) → splitPunctKeep s = [s]
  | [], _ => rfl
  | c :: rest, h => by
    have ih := splitPunctKeep_no_punct (s := rest)
      (fun d hd => h d (List.mem_cons_of_mem _ hd))
    simp only [splitPunctKeep]
    rw [ih, if_neg (by simp [h c (List.mem_cons_self c rest)])]

theorem splitPunctKeep_snoc {d : Char} (hd : isPunctE d = true) :
    ∀ {y : Str}, (∀ c ∈ y, isPunctE c = false) →
      splitPunctKeep (y ++ [d]) = [y, [d], []]
  | [], _ => by
    show splitPunctKeep [d] = _
    simp only [splitPunctKeep]
    rw [if_pos hd]
  | c :: y', h => by
    have ih := splitPunctKeep_snoc hd (y := y')
      (fun e he => h e (List.mem_cons_of_mem _ he))
    show splitPunctKeep (c :: (y' ++ [d])) = _
    simp only [splitPunctKeep]
    rw [ih, if_neg (by simp [h c (List.mem_cons_self c y')])]

theorem capFirst_length : ∀ s : Str, (capFirst s).length = s.length
  | [] => rfl
  | c :: cs => by simp only [capFirst]; split <;> simp

theorem capFirst_cons_pos {c : Char} (cs : Str)
    (h : (decide (97 ≤ c.toNat) && decide (c.toNat ≤ 122)) = true) :
    capFirst (c :: cs) = Char.ofNat (c.toNat - 32) :: cs := by
  simp only [capFirst]
  rw [if_pos h]

theorem capFirst_cons_neg {c : Char} (cs : Str)
    (h : ¬(decide (97 ≤ c.toNat) && decide (c.toNat ≤ 122)) = true) :
    capFirst (c :: cs) = c :: cs := by
  simp only [capFirst]
  rw [if_neg h]

theorem upper_of_lower_toNat {c : Char}
    (h : 97 ≤ c.toNat ∧ c.toNat ≤ 122) :
    (Char.ofNat (c.toNat - 32)).toNat = c.toNat - 32 :=
  ofNat_toNat_of_upper (by omega) (by omega)

theorem capFirst_class : ∀ {s : Str},
    (∀ c ∈ s, isLetterOrSpace c = true) →
    ∀ c ∈ capFirst s, isLetterOrSpace c = true
  | [], _ => by intro c hc; cases hc
  | c :: cs, h => by
    by_cases hcc : (decide (97 ≤ c.toNat) && decide (c.toNat ≤ 122)) = true
    · intro e he
      rw [capFirst_cons_pos cs hcc] at he
      rcases List.mem_cons.mp he with rfl | he'
      · simp only [Bool.and_eq_true, decide_eq_true_eq] at hcc
        have ht := upper_of_lower_toNat hcc
        simp only [isLetterOrSpace, isAsciiLetter, Bool.or_eq_true,
          Bool.and_eq_true, decide_eq_true_eq, ht]
        exact Or.inl (Or.inr ⟨by omega, by omega⟩)
      · exact h e (List.mem_cons_of_mem _ he')
    · intro e he
      rw [capFirst_cons_neg cs hcc] at he
      exact h e he

theorem capFirst_idem : ∀ s : Str, capFirst (capFirst s) = capFirst s
  | [] => rfl
  | c :: cs => by
    by_cases hcc : (decide (97 ≤ c.toNat) && decide (c.toNat ≤ 122)) = true
    · rw [capFirst_cons_pos cs hcc]
      simp only [Bool.and_eq_true, decide_eq_true_eq] at hcc
      have ht := upper_of_lower_toNat hcc
      exact capFirst_cons_neg cs
        (by simp only [Bool.and_eq_true, decide_eq_true_eq, ht]; omega)
    · rw [capFirst_cons_neg cs hcc]
      exact capFirst_cons_neg cs hcc

theorem capFirst_last_not_ws :
    ∀ {s : Str} {c : Char}, (∀ d, s.getLast? = some d → isWSJS d = false) →
      (capFirst s).getLast? = some c → isWSJS c = false
  | [], c, _, h => by simp [capFirst] at h
  | [d], c, hl, h => by
    by_cases hdd : (decide (97 ≤ d.toNat) && decide (d.toNat ≤ 122)) = true
    · rw [capFirst_cons_pos [] hdd] at h
      simp at h
      subst h
      simp only [Bool.and_eq_true, decide_eq_true_eq] at hdd
      have ht := upper_of_lower_toNat hdd
      exact range_not_ws (Or.inl ⟨by rw [ht]; omega, by rw [ht]; omega⟩)
    · rw [capFirst_cons_neg [] hdd] at h
      simp at h
      subst h
      exact hl _ (by simp)
  | d :: e :: r, c, hl, h => by
    by_cases hdd : (decide (97 ≤ d.toNat) && decide (d.toNat ≤ 122)) = true
    · rw [capFirst_cons_pos (e :: r) hdd, List.getLast?_cons_cons] at h
      exact hl c (by rw [List.getLast?_cons_cons]; exact h)
    · rw [capFirst_cons_neg (e :: r) hdd, List.getLast?_cons_cons] at h
      exact hl c (by rw [List.getLast?_cons_cons]; exact h)

theorem capFirst_head_not_ws :
    ∀ {s : Str} {c : Char}, (∀ d, s.head? = some d → isWSJS d = false) →
      (capFirst s).head? = some c → isWSJS c = false
  | [], c, _, h => by simp [capFirst] at h
  | d :: cs, c, hh, h => by
    by_cases hdd : (decide (97 ≤ d.toNat) && decide (d.toNat ≤ 122)) = true
    · rw [capFirst_cons_pos cs hdd] at h
      simp at h
      subst h
      simp only [Bool.and_eq_true, decide_eq_true_eq] at hdd
      have ht := upper_of_lower_toNat hdd
      exact range_not_ws (Or.inl ⟨by rw [ht]; omega, by rw [ht]; omega⟩)
    · rw [capFirst_cons_neg cs hdd] at h
      simp at h
      subst h
      exact hh _ (by simp)

theorem noDoubleWS_capFirst : ∀ {s : Str}, NoDoubleWS s →
    NoDoubleWS (capFirst s)
  | [], h => h
  | d :: cs, h => by
    by_cases hdd : (decide (97 ≤ d.toNat) && decide (d.toNat ≤ 122)) = true
    · rw [capFirst_cons_pos cs hdd]
      simp only [Bool.and_eq_true, decide_eq_true_eq] at hdd
      have ht := upper_of_lower_toNat hdd
      exact List.chain'_cons'.mpr
        ⟨fun y _ => Or.inl (range_not_ws
          (Or.inl ⟨by rw [ht]; omega, by rw [ht]; omega⟩)),
         (List.chain'_cons'.mp h).2⟩
    · rw [capFirst_cons_neg cs hdd]
      exact h

theorem wsOnlySpace_capFirst : ∀ {s : Str}, wsOnlySpace s →
    wsOnlySpace (capFirst s)
  | [], h => h
  | d :: cs, h => by
    intro e he hw
    by_cases hdd : (decide (97 ≤ d.toNat) && decide (d.toNat ≤ 122)) = true
    · rw [capFirst_cons_pos cs hdd] at he
      rcases List.mem_cons.mp he with rfl | he'
      · simp only [Bool.and_eq_true, decide_eq_true_eq] at hdd
        have ht := upper_of_lower_toNat hdd
        have hnw := range_not_ws (c := Char.ofNat (d.toNat - 32))
          (Or.inl (by rw [ht]; omega))
        rw [hnw] at hw
        cases hw
      · exact h e (List.mem_cons_of_mem _ he') hw
    · rw [capFirst_cons_neg cs hdd] at he
      exact h e he hw

/-! ## The cleanEnglishText pipeline on simple sentences -/

theorem trim_word_dot_space {z : Str} (hne : z ≠ [])
    (hhead : ∀ c, z.head? = some c → isWSJS c = false) :
    trimWS (z ++ ['.'] ++ [' ']) = z ++ ['.'] := by
  rw [trimWS]
  have hdrop : (z ++ ['.'] ++ [' ']).dropWhile isWSJS = z ++ ['.'] ++ [' '] := by
    apply dropWhileWS_eq_self
    intro c hc
    cases z with
    | nil => exact absurd rfl hne
    | cons a zs =>
      simp at hc
      subst hc
      exact hhead _ rfl
  rw [hdrop, trimRightWS_snoc_ws (by decide) (z ++ ['.']),
    trimRightWS_snoc_nonws (by decide) z]

theorem processPipeline_no_punct (t : Str) (hne : t ≠ [])
    (hclass : ∀ c ∈ t, isLetterOrSpace c = true)
    (htrim : trimWS t = t)
    (hlen : t.length ≤ 50) :
    trimWS (List.flatten (processSentencesGo
      ((splitPunctKeep t).filter (· ≠ [])))) = capFirst t ++ ['.'] := by
  have hnp : ∀ c ∈ t, isPunctE c = false :=
    fun c hc => class_not_punct (hclass c hc)
  have hheadt : ∀ c, t.head? = some c → isWSJS c = false :=
    fun c h => trimWS_head_not_ws (s := t) (by rw [htrim]; exact h)
  have hz_ne : capFirst t ≠ [] := by
    intro h0
    apply hne
    have hl := capFirst_length t
    rw [h0] at hl
    exact List.length_eq_zero.mp hl.symm
  have hzhead : ∀ c, (capFirst t).head? = some c → isWSJS c = false :=
    fun c h => capFirst_head_not_ws hheadt h
  rw [splitPunctKeep_no_punct hnp,
    show ([t].filter (· ≠ [])) = [t] from by simp [hne]]
  show trimWS (List.flatten (processOneSentence t ['.'])) = _
  simp only [processOneSentence, replaceApos, htrim]
  rw [if_neg (by rw [capFirst_length]; omega)]
  rw [show List.flatten [capFirst t ++ ['.'] ++ [' ']] =
    capFirst t ++ ['.'] ++ [' '] from by simp]
  exact trim_word_dot_space hz_ne hzhead

theorem processPipeline_dot (y : Str) (hne : y ≠ [])
    (hclass : ∀ c ∈ y, isLetterOrSpace c = true)
    (htrim : trimWS y = y) (hcap : capFirst y = y) (hlen : y.length ≤ 50) :
    trimWS (List.flatten (processSentencesGo
      ((splitPunctKeep (y ++ ['.'])).filter (· ≠ [])))) = y ++ ['.'] := by
  have hnp : ∀ c ∈ y, isPunctE c = false :=
    fun c hc => class_not_punct (hclass c hc)
  have hheady : ∀ c, y.head? = some c → isWSJS c = false :=
    fun c h => trimWS_head_not_ws (s := y) (by rw [htrim]; exact h)
  rw [splitPunctKeep_snoc (by decide) hnp,
    show ([y, ['.'], []].filter (· ≠ [])) = [y, ['.']] from by simp [hne]]
  show trimWS (List.flatten
    (processOneSentence y ['.'] ++ processSentencesGo [])) = _
  simp only [processOneSentence, processSentencesGo, replaceApos, htrim, hcap,
    List.append_nil]
  rw [if_neg (by omega)]
  rw [show List.flatten [y ++ ['.'] ++ [' ']] = y ++ ['.'] ++ [' '] from by simp]
  exact trim_word_dot_space hne hheady

theorem basicClean_of_class (s : Str)
    (hclass : ∀ c ∈ s, isLetterOrSpace c = true) :
    trimWS (removeBraces (removeParens (removeSquareBrackets
      (collapseWS s)))) = trimWS (collapseWS s) := by
  have hclass_u : ∀ c ∈ collapseWS s, isLetterOrSpace c = true := by
    intro c hc
    rcases mem_collapseWS hc with rfl | ⟨hm, _⟩
    · exact class_space
    · exact hclass c hm
  rw [removeSquareBrackets_eq_self
      (fun c hc => class_not_bracket (hclass_u c hc)),
    removeParens_eq_self
      (fun hm => absurd (hclass_u '(' hm) (by decide)),
    removeBraces_eq_self
      (fun hm => absurd (hclass_u '\x7b' hm) (by decide))]

theorem cleanText_dispatch_eng (x : Str)
    (hcjk : ∀ c ∈ x, isCJKCharJS c = false)
    (hlet : x.any isAsciiLetter = true) :
    TranscriptFetcher.cleanText x = TranscriptFetcher.cleanEnglishText x := by
  simp only [TranscriptFetcher.cleanText]
  rw [if_pos]
  have h0 : x.filter isCJKCharJS = [] :=
    List.filter_eq_nil_iff.mpr (fun c hc => by simp [hcjk c hc])
  rw [h0]
  obtain ⟨c, hcm, hcl⟩ := List.any_eq_true.mp hlet
  have : c ∈ x.filter isAsciiLetter := List.mem_filter.mpr ⟨hcm, hcl⟩
  have hpos : 0 < (x.filter isAsciiLetter).length :=
    List.length_pos.mpr (List.ne_nil_of_mem this)
  simpa using hpos

theorem cleanEnglishText_class (s : Str)
    (hclass : ∀ c ∈ s, isLetterOrSpace c = true)
    (hletter : s.any isAsciiLetter = true)
    (hlen : s.length ≤ 50) :
    TranscriptFetcher.cleanEnglishText s =
      capFirst (trimWS (collapseWS s)) ++ ['.'] := by
  have hclass_u : ∀ c ∈ collapseWS s, isLetterOrSpace c = true := by
    intro c hc
    rcases mem_collapseWS hc with rfl | ⟨hm, _⟩
    · exact class_space
    · exact hclass c hm
  have hclass_t : ∀ c ∈ trimWS (collapseWS s), isLetterOrSpace c = true :=
    fun c hc => hclass_u c (mem_of_mem_trimWS hc)
  have hne : trimWS (collapseWS s) ≠ [] := by
    obtain ⟨c, hcm, hcl⟩ := List.any_eq_true.mp hletter
    exact List.ne_nil_of_mem (mem_trimWS_of_mem (letter_not_ws hcl)
      (mem_collapseWS_of_mem (letter_not_ws hcl) hcm))
  have htrim : trimWS (trimWS (collapseWS s)) = trimWS (collapseWS s) :=
    trimWS_eq_self (fun c h => trimWS_head_not_ws h)
      (fun c h => trimWS_getLast_not_ws h)
  have hlen_t : (trimWS (collapseWS s)).length ≤ 50 :=
    le_trans (trimWS_length_le _) (le_trans (collapseWS_length_le _) hlen)
  simp only [TranscriptFetcher.cleanEnglishText]
  rw [basicClean_of_class s hclass]
  exact processPipeline_no_punct _ hne hclass_t htrim hlen_t

theorem cleanEnglishText_dot (y : Str) (hne : y ≠ [])
    (hclass : ∀ c ∈ y, isLetterOrSpace c = true)
    (hnd : NoDoubleWS y) (hos : wsOnlySpace y)
    (hhead : ∀ c, y.head? = some c → isWSJS c = false)
    (hlast : ∀ c, y.getLast? = some c → isWSJS c = false)
    (hcap : capFirst y = y) (hlen : y.length ≤ 50) :
    TranscriptFetcher.cleanEnglishText (y ++ ['.']) = y ++ ['.'] := by
  have hnd2 : NoDoubleWS (y ++ ['.']) := by
    apply List.chain'_append.mpr
    refine ⟨hnd, by simp [NoDoubleWS], ?_⟩
    intro x hx z hz
    simp at hz
    subst hz
    exact Or.inr (by decide)
  have hos2 : wsOnlySpace (y ++ ['.']) := by
    intro c hc hw
    rcases List.mem_append.mp hc with hc | hc
    · exact hos c hc hw
    · simp at hc
      subst hc
      exact absurd hw (by decide)
  have hcol : collapseWS (y ++ ['.']) = y ++ ['.'] :=
    collapseWS_eq_self hnd2 hos2
  have hnb : ∀ c ∈ y ++ ['.'], isSquareBracketChar c = false := by
    intro c hc
    rcases List.mem_append.mp hc with hc | hc
    · exact class_not_bracket (hclass c hc)
    · simp at hc; subst hc; decide
  have hnp : '(' ∉ y ++ ['.'] := by
    intro hm
    rcases List.mem_append.mp hm with hm | hm
    · exact absurd (hclass '(' hm) (by decide)
    · simp at hm
  have hnbr : '\x7b' ∉ y ++ ['.'] := by
    intro hm
    rcases List.mem_append.mp hm with hm | hm
    · exact absurd (hclass '\x7b' hm) (by decide)
    · simp at hm
  have htrim2 : trimWS (y ++ ['.']) = y ++ ['.'] := by
    apply trimWS_eq_self
    · intro c h
      cases y with
      | nil => exact absurd rfl hne
      | cons a ys =>
        simp at h
        subst h
        exact hhead _ rfl
    · intro c h
      rw [List.getLast?_concat] at h
      cases h
      decide
  simp only [TranscriptFetcher.cleanEnglishText]
  rw [hcol, removeSquareBrackets_eq_self hnb, removeParens_eq_self hnp,
    removeBraces_eq_self hnbr, htrim2]
  exact processPipeline_dot y hne hclass (trimWS_eq_self hhead hlast) hcap hlen

set_option maxRecDepth 8000 in
/-- C5 (counterexample): the English cleanup is not idempotent.  On a
55-character sentence containing the conjunction "and", the first pass
splits at the conjunction, re-emits the clauses WITHOUT terminal
punctuation and glues the second clause directly after ", and"; the
second pass, seeing no sentence punctuation, appends a period — so the
results differ. -/
theorem c5_counterexample_not_idempotent :
    TranscriptFetcher.cleanText (TranscriptFetcher.cleanText
      (List.replicate 30 'a' ++ " and ".toList ++ List.replicate 20 'b')) ≠
    TranscriptFetcher.cleanText
      (List.replicate 30 'a' ++ " and ".toList ++ List.replicate 20 'b') := by
  decide

/-- C5 (amended): `cleanText` IS idempotent on simple English input —
any string of ASCII letters and spaces, containing at least one letter,
of length at most 50: one pass normalizes whitespace, capitalizes the
first letter and appends a period, and a second pass reproduces the same
output.  Idempotence fails in general on the long-sentence conjunction
path (see the counterexample). -/
theorem c5_amended_idempotent_on_simple_english (s : Str)
    (hclass : ∀ c ∈ s, isLetterOrSpace c = true)
    (hletter : s.any isAsciiLetter = true)
    (hlen : s.length ≤ 50) :
    TranscriptFetcher.cleanText (TranscriptFetcher.cleanText s) =
      TranscriptFetcher.cleanText s := by
  have hclass_u : ∀ c ∈ collapseWS s, isLetterOrSpace c = true := by
    intro c hc
    rcases mem_collapseWS hc with rfl | ⟨hm, _⟩
    · exact class_space
    · exact hclass c hm
  have hclass_t : ∀ c ∈ trimWS (collapseWS s), isLetterOrSpace c = true :=
    fun c hc => hclass_u c (mem_of_mem_trimWS hc)
  have hne : trimWS (collapseWS s) ≠ [] := by
    obtain ⟨c, hcm, hcl⟩ := List.any_eq_true.mp hletter
    exact List.ne_nil_of_mem (mem_trimWS_of_mem (letter_not_ws hcl)
      (mem_collapseWS_of_mem (letter_not_ws hcl) hcm))
  have hlen_t : (trimWS (collapseWS s)).length ≤ 50 :=
    le_trans (trimWS_length_le _) (le_trans (collapseWS_length_le _) hlen)
  have hhead_t : ∀ c, (trimWS (collapseWS s)).head? = some c →
      isWSJS c = false := fun c h => trimWS_head_not_ws h
  have hlast_t : ∀ c, (trimWS (collapseWS s)).getLast? = some c →
      isWSJS c = false := fun c h => trimWS_getLast_not_ws h
  have hnd_t : NoDoubleWS (trimWS (collapseWS s)) :=
    noDoubleWS_trimWS (noDoubleWS_collapse s)
  have hos_t : wsOnlySpace (trimWS (collapseWS s)) :=
    wsOnlySpace_of_subset (fun c hc => mem_of_mem_trimWS hc)
      (wsOnlySpace_collapse s)
  have hclass_y := capFirst_class hclass_t
  have hne_y : capFirst (trimWS (collapseWS s)) ≠ [] := by
    intro h0
    apply hne
    have hl := capFirst_length (trimWS (collapseWS s))
    rw [h0] at hl
    exact List.length_eq_zero.mp hl.symm
  have hhead_y : ∀ c, (capFirst (trimWS (collapseWS s))).head? = some c →
      isWSJS c = false := fun c h => capFirst_head_not_ws hhead_t h
  have hlast_y : ∀ c, (capFirst (trimWS (collapseWS s))).getLast? = some c →
      isWSJS c = false := fun c h => capFirst_last_not_ws hlast_t h
  have hnd_y := noDoubleWS_capFirst hnd_t
  have hos_y := wsOnlySpace_capFirst hos_t
  have hcap_y := capFirst_idem (trimWS (collapseWS s))
  have hlen_y : (capFirst (trimWS (collapseWS s))).length ≤ 50 := by
    rw [capFirst_length]
    exact hlen_t
  have hpass1 : TranscriptFetcher.cleanText s =
      capFirst (trimWS (collapseWS s)) ++ ['.'] := by
    rw [cleanText_dispatch_eng s
      (fun c hc => class_not_cjk (hclass c hc)) hletter]
    exact cleanEnglishText_class s hclass hletter hlen
  rw [hpass1]
  have hcjk2 : ∀ c ∈ capFirst (trimWS (collapseWS s)) ++ ['.'],
      isCJKCharJS c = false := by
    intro c hc
    rcases List.mem_append.mp hc with hc | hc
    · exact class_not_cjk (hclass_y c hc)
    · simp at hc; subst hc; decide
  have hlet2 : (capFirst (trimWS (collapseWS s)) ++ ['.']).any
      isAsciiLetter = true := by
    cases hy : capFirst (trimWS (collapseWS s)) with
    | nil => exact absurd hy hne_y
    | cons a ys =>
      apply List.any_eq_true.mpr
      refine ⟨a, by simp, ?_⟩
      have hmema : a ∈ capFirst (trimWS (collapseWS s)) := by rw [hy]; simp
      exact class_nonws_letter (hclass_y a hmema)
        (hhead_y a (by rw [hy]; rfl))
  rw [cleanText_dispatch_eng _ hcjk2 hlet2]
  exact cleanEnglishText_dot _ hne_y hclass_y hnd_y hos_y hhead_y hlast_y
    hcap_y hlen_y

/-- Witness for C5 (amended) at a concrete input. -/
theorem c5_amended_idempotent_on_simple_english_witness :
    TranscriptFetcher.cleanText (TranscriptFetcher.cleanText
      "hello world".toList) =
      TranscriptFetcher.cleanText "hello world".toList :=
  c5_amended_idempotent_on_simple_english "hello world".toList
    (by decide) (by decide) (by decide)
